import Mathlib

/-!
Verification of the renpy-distributor build pipeline core.

This file gives a shallow embedding, in Lean, of the parts of the
repository that the specification's testable claims are about:

* `machinery/file_utils.py` — the glob pattern matcher (`match`), the
  `File`/`FileList` data model with its merge semantics, and the
  `classify_directory` walker;
* `machinery/buildinfo.py` — `BuildInfo._check_filelists`;
* `machinery/packager.py` — the `write_file` primitives of the concrete
  packagers (zip, tar, directory, dmg);
* `machinery/model.py` — `TaskResult`, `Task.run`, `Runner.compute`
  (graph building, cycle peeling, DFS placement) and `Runner.run`.

Python dicts are embedded as insertion-ordered association lists,
Python `assert`/`raise` as `Except`, and filesystem walks as pure
functions over an explicit tree value.
-/

namespace RenpyDist

/-! ## ASCII case helpers

The Python code matches patterns with `re.I` (ASCII-relevant here);
we model the case-insensitive character comparison explicitly. -/
/-- ASCII lower-casing of a character, as Python `re.I` treats letters. -/
def lowerChar (c : Char) : Char :=
  if 65 ≤ c.toNat ∧ c.toNat ≤ 90 then Char.ofNat (c.toNat + 32) else c

/-- ASCII upper-casing of a character. -/
def upperChar (c : Char) : Char :=
  if 97 ≤ c.toNat ∧ c.toNat ≤ 122 then Char.ofNat (c.toNat - 32) else c

/-! ## Pattern matcher (`machinery/file_utils.py`, `match`)

The Python `match` compiles `pattern` to a regular expression string
and tests it (with `re.I`, `re.match`, and a final `$`) against `s`
and against `"/" + s`.  The generated regexes use only these forms:
`.*` (from `**`), `[^/]*/?` (from `*`), a character class (copied
verbatim from `[...]`), and escaped literal characters, followed by
`$`.  `Tok` is that token alphabet and `tmatch` the (backtracking)
matcher for it; `$` accepts at end of string or before a final
newline, `.` does not match a newline, exactly as in Python `re`. -/
inductive Tok where
  | star2 : Tok
  | star1 : Tok
  | cls (content : List Char) : Tok
  | lit (c : Char) : Tok
deriving Repr, DecidableEq

/-- Tokenisation of a pattern string, following the `while pattern:`
loop of `match`: `**` before `*`, then `[...]` classes (content up to
the first `]`, the `]` itself consumed), then literal characters
(Python's `re.escape` makes them literal).  Every loop iteration
consumes at least one character, so fuel larger than the pattern
length (as `compileTokens` passes) is never exhausted; the fuel only
keeps the recursion structural. -/
def compileTokensF : Nat → List Char → List Tok
  | 0, _ => []
  | _ + 1, [] => []
  | fuel + 1, '*' :: '*' :: rest => Tok.star2 :: compileTokensF fuel rest
  | fuel + 1, '*' :: rest => Tok.star1 :: compileTokensF fuel rest
  | fuel + 1, '[' :: rest =>
      Tok.cls (rest.takeWhile (fun c => c ≠ ']')) ::
        compileTokensF fuel ((rest.dropWhile (fun c => c ≠ ']')).drop 1)
  | fuel + 1, c :: rest => Tok.lit c :: compileTokensF fuel rest

/-- Compile a whole pattern to its token list. -/
def compileTokens (l : List Char) : List Tok := compileTokensF (l.length + 1) l

/-- Character-class content parsed into ranges: `a-b` is a range, any
other character stands for itself (as in a Python regex class). -/
def classItems : List Char → List (Char × Char)
  | a :: '-' :: b :: rest => (a, b) :: classItems rest
  | a :: rest => (a, a) :: classItems rest
  | [] => []

/-- Does `c` fall in one of the class ranges, case-insensitively?
Under `re.I` a character matches if either case variant falls in a
range. -/
def itemsMatch (items : List (Char × Char)) (c : Char) : Bool :=
  items.any fun p =>
    (decide (p.1 ≤ lowerChar c) && decide (lowerChar c ≤ p.2)) ||
    (decide (p.1 ≤ upperChar c) && decide (upperChar c ≤ p.2))

/-- Class match including the leading `^` negation of regex classes. -/
def clsMatch (content : List Char) (c : Char) : Bool :=
  match content with
  | '^' :: rest => !(itemsMatch (classItems rest) c)
  | _ => itemsMatch (classItems content) c

/-- Case-insensitive literal character comparison (`re.I`). -/
def charIEq (p c : Char) : Bool := lowerChar p == lowerChar c

/-- The backtracking matcher for a compiled token list against a
character list; the implicit trailing `$` accepts at the end of the
string or just before a final newline (Python `re` semantics), and
`.` (inside `.*` from `**`) does not match a newline.  Every step of
the matcher shortens `ts.length + s.length`, so the explicit fuel
(always instantiated with more than that sum) never runs out; it only
serves to keep the recursion structural, hence kernel-computable. -/
def tmatchF : Nat → List Tok → List Char → Bool
  | 0, _, _ => false
  | _ + 1, [], s => decide (s = [] ∨ s = ['\n'])
  | _ + 1, Tok.lit _ :: _, [] => false
  | fuel + 1, Tok.lit p :: ts, c :: s => charIEq p c && tmatchF fuel ts s
  | _ + 1, Tok.cls _ :: _, [] => false
  | fuel + 1, Tok.cls content :: ts, c :: s => clsMatch content c && tmatchF fuel ts s
  | fuel + 1, Tok.star2 :: ts, [] => tmatchF fuel ts []
  | fuel + 1, Tok.star2 :: ts, c :: s =>
      tmatchF fuel ts (c :: s) || (decide (c ≠ '\n') && tmatchF fuel (Tok.star2 :: ts) s)
  | fuel + 1, Tok.star1 :: ts, [] => tmatchF fuel ts []
  | fuel + 1, Tok.star1 :: ts, c :: s =>
      tmatchF fuel ts (c :: s) ||
        (if c = '/' then tmatchF fuel ts s else tmatchF fuel (Tok.star1 :: ts) s)

/-- Acceptance of a whole string by the compiled, anchored,
case-insensitive regex of `pattern` (one `regexp.match` call). -/
def accepts (pattern s : String) : Bool :=
  let toks := compileTokens pattern.data
  tmatchF (toks.length + s.data.length + 1) toks s.data

/-- The `match(s, pattern)` function of `machinery/file_utils.py`:
compile the pattern, then accept if the regex matches `s` or `"/" + s`.
(`match` is a Lean keyword, hence the name `matchPat`.) -/
def matchPat (s pattern : String) : Bool :=
  accepts pattern s || accepts pattern ("/" ++ s)

example : matchPat "a/b" "a/**" = true := by decide
example : matchPat "a" "a/**" = false := by decide
example : matchPat "a/b/c.txt" "**.txt" = true := by decide

/-! Case-insensitivity of the matcher: lower-casing the matched name
does not change the result. -/
/-- Lower-casing a whole string (ASCII, as `re.I` sees it). -/
def lowerStr (s : String) : String := String.mk (s.data.map lowerChar)

/-! ## File and FileList (`machinery/file_utils.py`)

`File` is the four-field record; `__eq__` compares all four fields
(`self.__dict__ == other.__dict__`), which is Lean's structural
equality.  A `FileList` stores an insertion-ordered mapping
`name -> File` (a Python dict); we embed it as an association list.
Filesystem paths are abstract strings.  Python `assert` failures
become `Except.error`. -/
structure File where
  name : String
  path : Option String
  directory : Bool
  executable : Bool
deriving Repr, DecidableEq

/-- `File.copy()` without renaming: rebuilds the record from its four
fields. -/
def File.copy (f : File) : File :=
  { name := f.name, path := f.path, directory := f.directory, executable := f.executable }

/-- Does the character list contain two slashes in a row (`"//" in name`)? -/
def hasDoubleSlash : List Char → Bool
  | '/' :: '/' :: _ => true
  | _ :: rest => hasDoubleSlash rest
  | [] => false

/-- `name.startswith("/")`. -/
def headIsSlash : List Char → Bool
  | '/' :: _ => true
  | _ => false

/-- `name.split("/")` (keeps empty segments, as Python does). -/
def splitSlash : List Char → List (List Char)
  | [] => [[]]
  | '/' :: rest => [] :: splitSlash rest
  | c :: rest =>
      match splitSlash rest with
      | s :: ss => (c :: s) :: ss
      | [] => [[c]]

/-- `_check_file_name`: all of its `assert` conditions as one boolean.
Note that despite its messages the code checks for a backslash
character, not a forward slash. -/
def checkFileName (name : String) : Bool :=
  !(name.data = []) &&
  !(name.data.contains '\\') &&
  !(headIsSlash name.data) &&
  !(name.data.getLastD ' ' = '/') &&
  !(hasDoubleSlash name.data) &&
  ((splitSlash name.data).all fun seg => !(seg = ['.']) && !(seg = ['.', '.']))

/-- Result of `_merge_files(first, second)`: which object the function
returned (`keepFirst` = the already-stored `first`, whose identity the
callers test with `is`), or an assertion failure. -/
inductive MergeOutcome where
  | keepFirst : MergeOutcome
  | useSecond (f : File) : MergeOutcome
  | conflict : MergeOutcome
deriving Repr, DecidableEq

/-- `_merge_files`: two directories keep the first unless its `path`
is `None` (then the second wins); otherwise the files must be equal. -/
def mergeFiles (first second : File) : MergeOutcome :=
  if first.directory && second.directory then
    (if first.path.isSome then MergeOutcome.keepFirst else MergeOutcome.useSecond second)
  else if first = second then MergeOutcome.keepFirst
  else MergeOutcome.conflict

/-- A `FileList`'s `_files` dict: insertion-ordered `name -> File`. -/
abbrev FileList := List (String × File)

inductive FLError where
  | badName (name : String) : FLError
  | conflict (first second : File) : FLError
deriving Repr, DecidableEq

/-- Reassigning an existing dict key keeps its position. -/
def replaceEntry (fl : FileList) (key : String) (v : File) : FileList :=
  fl.map fun kv => if kv.1 = key then (kv.1, v) else kv

/-- `FileList.__setitem__`: check the name; merge when the key exists
(`value is self[key]` means no write); store a copy otherwise. -/
def setItem (fl : FileList) (key : String) (value : File) : Except FLError FileList :=
  if !checkFileName key then Except.error (FLError.badName key)
  else
    match fl.lookup key with
    | some first =>
        match mergeFiles first value with
        | MergeOutcome.keepFirst => Except.ok fl
        | MergeOutcome.useSecond f => Except.ok (replaceEntry fl key f.copy)
        | MergeOutcome.conflict => Except.error (FLError.conflict first value)
    | none => Except.ok (fl ++ [(key, value.copy)])

/-- `FileList.add(value)` is `self[value.name] = value`. -/
def FileList.add (fl : FileList) (value : File) : Except FLError FileList :=
  setItem fl value.name value

/-- `FileList(*files)`: add each file in turn to an empty list. -/
def ofFiles (files : List File) : Except FLError FileList :=
  files.foldlM FileList.add []

/-- One iteration of the inner loop of `FileList.merge`: `seen` is the
dedup dict, `rv` the output list (`f.copy()` appended whenever the
stored object is not kept). -/
def mergeStep (st : FileList × List File) (f : File) : Except FLError (FileList × List File) :=
  match st.1.lookup f.name with
  | some s0 =>
      match mergeFiles s0 f with
      | MergeOutcome.keepFirst => Except.ok st
      | MergeOutcome.useSecond f2 =>
          Except.ok (replaceEntry st.1 f.name f2.copy, st.2 ++ [f2.copy])
      | MergeOutcome.conflict => Except.error (FLError.conflict s0 f)
  | none => Except.ok (st.1 ++ [(f.name, f.copy)], st.2 ++ [f.copy])

/-- `FileList.merge(*lists)`: run the dedup loop over all entries of
all lists, then build a fresh `FileList` from the collected files. -/
def FileList.merge (lists : List FileList) : Except FLError FileList := do
  let st ← lists.foldlM (fun st fl => fl.foldlM (fun st kv => mergeStep st kv.2) st) ([], [])
  ofFiles st.2

/-- Python `dict` equality (used by `FileList.__eq__`): same keys with
equal values, insertion order ignored. -/
def dictEqB (a b : FileList) : Bool :=
  (a.all fun kv => b.lookup kv.1 == some kv.2) && (b.all fun kv => a.lookup kv.1 == some kv.2)

/-- Well-formedness every Python-built `FileList` enjoys: unique valid
keys, each value named by its key. -/
def FLWF (fl : FileList) : Prop :=
  (fl.map Prod.fst).Nodup ∧ ∀ kv ∈ fl, checkFileName kv.1 = true ∧ kv.2.name = kv.1

/-! ## Classifier (`machinery/file_utils.py`, `classify_directory`)

The filesystem tree is an explicit value: each node knows its on-disk
path, whether it is a directory, and (then) its named children.  The
walker's observable behaviour — the relative names it examines, the
two kinds of `print`, and the `file_lists[fl].add(...)` calls — is
returned as an ordered effect list. -/
mutual
inductive FSNode where
  | mk (path : String) (isDir : Bool) (children : FSChildren)
inductive FSChildren where
  | nil : FSChildren
  | cons (entryName : String) (node : FSNode) (rest : FSChildren) : FSChildren
end

/-- The observable events of one classification run, in order. -/
inductive Eff where
  | call (name : String) : Eff
  | unmatched (matchName : String) : Eff
  | matched (matchName : String) (pattern : String) : Eff
  | add (fileListName : String) (f : File) : Eff
deriving Repr, DecidableEq

/-- `re.search('[\x00-\x19]', name)`: does the name contain an ASCII
control character with code point at most 0x19? -/
def hasControlChar (name : String) : Bool :=
  name.data.any fun c => c.toNat ≤ 25

/-- `pattern.rstrip("*")`. -/
def rstripStars (p : String) : String :=
  String.mk ((p.data.reverse.dropWhile fun c => c = '*').reverse)

/-- The `for pattern, file_list in patterns.items()` loop: first match
wins, except that a `None` (exclude) rule matching a directory is
skipped when the pattern minus its trailing `*`s still matches. -/
def findRule (isDir : Bool) (matchName : String) :
    List (String × Option (List String)) → Option (String × Option (List String))
  | [] => none
  | (p, fl) :: rest =>
      if matchPat matchName p then
        if fl.isNone && isDir then
          (let np := rstripStars p
           if p ≠ np ∧ matchPat matchName np then findRule isDir matchName rest
           else some (p, fl))
        else some (p, fl)
      else findRule isDir matchName rest

mutual
/-- The recursive `walk(name, path)` of `classify_directory`.  The
`Eff.call` event records that `walk` was invoked with this relative
name (before the control-character guard). -/
def walk (pats : List (String × Option (List String))) (name : String) (node : FSNode) :
    List Eff :=
  Eff.call name ::
    (if hasControlChar name then []
     else
       match node with
       | FSNode.mk path isDir children =>
         let matchName := if isDir then name ++ "/" else name
         match findRule isDir matchName pats with
         | none => [Eff.unmatched matchName]
         | some (p, none) => [Eff.matched matchName p]
         | some (p, some fls) =>
             Eff.matched matchName p ::
               (fls.map fun fl => Eff.add fl (File.mk name (some path) isDir false)) ++
               (if isDir then walkChildren pats name children else []))

/-- The `for fn in path.iterdir(): walk(f"{name}/{fn.name}", fn)` loop. -/
def walkChildren (pats : List (String × Option (List String))) (base : String) :
    FSChildren → List Eff
  | FSChildren.nil => []
  | FSChildren.cons entryName node rest =>
      walk pats (base ++ "/" ++ entryName) node ++ walkChildren pats base rest
end

/-- `classify_directory(where, directory, file_lists, patterns)`:
walk every top-level entry. -/
def classifyDirectory (pats : List (String × Option (List String))) :
    FSChildren → List Eff
  | FSChildren.nil => []
  | FSChildren.cons entryName node rest =>
      walk pats entryName node ++ classifyDirectory pats rest

/-! ## BuildInfo validation (`machinery/buildinfo.py`, `_check_filelists`)

Only the fields `_check_filelists` reads are embedded.  Python sets
are embedded as lists used for membership (the error lists name the
missing references in order of appearance). -/
structure Package where
  name : String
  file_lists : List String
deriving Repr, DecidableEq

structure Archive where
  name : String
  file_lists : List String
deriving Repr, DecidableEq

/-- One `_check_filelists` failure: which object complained and which
referenced names were missing from the valid set. -/
structure CheckErr where
  what : String
  missing : List String
deriving Repr, DecidableEq

/-- The nested `check_used(file_list, what)`: fail iff some referenced
name is not in the valid set. -/
def checkUsed (valid : List String) (fls : List String) (what : String) :
    Except CheckErr Unit :=
  let extra := (fls.filter fun n => !(valid.contains n)).dedup
  if extra = [] then Except.ok () else Except.error { what := what, missing := extra }

/-- `BuildInfo._check_filelists`.  Note the faithful final loop: the
source iterates `game_patterns` a second time (not `renpy_patterns`)
while labelling failures "RenPy pattern". -/
def checkFilelists (packages : List Package) (archives : List Archive)
    (game_patterns renpy_patterns : List (String × Option (List String))) :
    Except CheckErr (List String) := do
  let valid0 := packages.flatMap fun p => p.file_lists
  let _ ← archives.forM fun a => checkUsed valid0 a.file_lists ("Archive " ++ a.name)
  let valid1 := valid0 ++ archives.map fun a => a.name
  let _ ← game_patterns.forM fun pr =>
    match pr.2 with
    | none => Except.ok ()
    | some fls => checkUsed valid1 fls ("Game pattern " ++ pr.1)
  let _ ← game_patterns.forM fun pr =>
    match pr.2 with
    | none => Except.ok ()
    | some fls => checkUsed valid1 fls ("RenPy pattern " ++ pr.1)
  Except.ok valid1

/-! ## Packager `write_file` primitives (`machinery/packager.py`)

Each `write_file` is embedded as a pure description of the entry or
filesystem effect it produces, with `raise`/`assert` as
`Except.error`.  Time and `stat` data enter as parameters; OS-level
failures of `open`/`copy` are outside the embedding. -/
structure ZipEntry where
  filename : String
  date_time : Nat
  deflated : Bool
  create_system : Nat
  external_attr : Nat
deriving Repr, DecidableEq

/-- `ZipPackager.write_file`: refuses `path = None`, else produces a
deflated entry with the Unix mode in the high 16 bits. -/
def zipWriteFile (name : String) (path : Option String) (xbit : Bool) (dateTime : Nat) :
    Except String ZipEntry :=
  match path with
  | none => Except.error ("path for " ++ name ++ " must not be None.")
  | some _ =>
      Except.ok
        { filename := name, date_time := dateTime, deflated := true, create_system := 3,
          external_attr := (if xbit then 0o100755 else 0o100644) * 2 ^ 16 }

structure DirWriteEffect where
  dest : String
  src : String
  mode : Nat
deriving Repr, DecidableEq

/-- `DirectoryPackager.write_file`: refuses `path = None`, else copies
to `self.path / name` and chmods 755/644. -/
def dirWriteFile (base name : String) (path : Option String) (xbit : Bool) :
    Except String DirWriteEffect :=
  match path with
  | none => Except.error ("path for " ++ name ++ " must not be None.")
  | some p =>
      Except.ok { dest := base ++ "/" ++ name, src := p, mode := if xbit then 0o755 else 0o644 }

/-- `DMGPackager` inherits `write_file` from `DirectoryPackager`
unchanged (it only overrides `init_package`). -/
def dmgWriteFile (base name : String) (path : Option String) (xbit : Bool) :
    Except String DirWriteEffect :=
  dirWriteFile base name path xbit

structure TarEntry where
  name : String
  size : Nat
  mtime : Nat
  isDirType : Bool
  mode : Nat
  uid : Nat
  gid : Nat
  uname : String
  gname : String
  withData : Bool
deriving Repr, DecidableEq

/-- `TarPackager.write_file`: with a real path, `gettarinfo` describes
the on-disk file (`statSize`/`statMtime`/`statIsReg` stand for its
result); with `path = None` it builds a fresh zero-size `DIRTYPE`
`TarInfo` stamped with the current time — it does not raise. -/
def tarWriteFile (notime : Bool) (name : String) (path : Option String) (xbit : Bool)
    (statSize statMtime : Nat) (statIsReg : Bool) (now : Nat) :
    Except String TarEntry :=
  let base : TarEntry :=
    match path with
    | some _ =>
        { name := name, size := statSize, mtime := statMtime, isDirType := !statIsReg,
          mode := 0, uid := 0, gid := 0, uname := "", gname := "", withData := statIsReg }
    | none =>
        { name := name, size := 0, mtime := now, isDirType := true,
          mode := 0, uid := 0, gid := 0, uname := "", gname := "", withData := false }
  Except.ok
    { base with
        mode := if xbit then 0o755 else 0o644,
        uid := 1000, gid := 1000, uname := "renpy", gname := "renpy",
        mtime := if notime then 0 else base.mtime }

/-! ## Task model and scheduler (`machinery/model.py`)

`TaskResult` is the `IntEnum`; `Task.run` is embedded as a function
of the kind-check outcome and of what the task function did
(returned, raised); `Runner.compute` is embedded in three stages
exactly as the source: graph building with unknown-reference
collection, cycle detection by iterative peeling, and memoized DFS
placement whose memo insertion order is the yielded order.  Python
dicts (`forward`, `reverse`, memo) are association lists; `set.pop`
order (unspecified in Python) is fixed as FIFO. -/
inductive TaskResult where
  | KEYBOARD_INTERRUPT : TaskResult
  | FAILURE_EXIT : TaskResult
  | EXCEPTION : TaskResult
  | FAILURE : TaskResult
  | SUCCESS : TaskResult
  | SKIPPED : TaskResult
  | SUCCESS_EXIT : TaskResult
deriving Repr, DecidableEq

/-- The `IntEnum` value of each result. -/
def TaskResult.toInt : TaskResult → Int
  | TaskResult.KEYBOARD_INTERRUPT => -3
  | TaskResult.FAILURE_EXIT => -2
  | TaskResult.EXCEPTION => -1
  | TaskResult.FAILURE => 0
  | TaskResult.SUCCESS => 1
  | TaskResult.SKIPPED => 2
  | TaskResult.SUCCESS_EXIT => 3

/-- What the task function did when `Task.run` called it: returned a
`TaskResult`, returned a boolean, raised an ordinary exception,
raised `SystemExit` with the given status code, or raised
`KeyboardInterrupt`. -/
inductive FnOutcome where
  | ret (r : TaskResult) : FnOutcome
  | retBool (b : Bool) : FnOutcome
  | exc : FnOutcome
  | sysExit (code : Option Int) : FnOutcome
  | interrupt : FnOutcome
deriving Repr, DecidableEq

/-- `Task.run`: skip on a failed kind check, otherwise run the
function, convert the three exception kinds, and coerce a non-
`TaskResult` (boolean) return value. -/
def taskRun (kindOk : Bool) (outcome : FnOutcome) : TaskResult :=
  if kindOk = false then TaskResult.SKIPPED
  else
    match outcome with
    | FnOutcome.ret r => r
    | FnOutcome.retBool b => if b then TaskResult.SUCCESS else TaskResult.FAILURE
    | FnOutcome.exc => TaskResult.EXCEPTION
    | FnOutcome.sysExit c =>
        if c = some 0 then TaskResult.SUCCESS_EXIT else TaskResult.FAILURE_EXIT
    | FnOutcome.interrupt => TaskResult.KEYBOARD_INTERRUPT

/-- The result loop of `Runner.run` over the task results in
execution order.  `acc` is the running `result` variable (initially
`0`); note that when the loop falls through without a `break` the
function returns the raw `IntEnum` value of the last task's result. -/
def runExitAux : Int → List TaskResult → Int
  | acc, [] => acc
  | _, r :: rest =>
      if r = TaskResult.SUCCESS_EXIT then 0
      else if r = TaskResult.KEYBOARD_INTERRUPT then 2
      else if r.toInt ≤ 0 then 1
      else runExitAux r.toInt rest

/-- Exit code of `Runner.run` as a function of the task results. -/
def runExit (rs : List TaskResult) : Int := runExitAux 0 rs

/-- One registration entry of the `Runner` (`name, requires,
dependencies`); the `Task` object itself carries no scheduling
information beyond its (unique) name. -/
structure RegTask where
  name : String
  requires : List String
  dependencies : List String
deriving Repr, DecidableEq

/-- `forward`/`reverse` of `Runner.compute`: insertion-ordered
`defaultdict(list)` as an association list. -/
abbrev AL := List (String × List String)

/-- Read with default `[]` (both `forward.get(name, ())` and a
`defaultdict` read that is immediately appended to or deleted). -/
def alGet (m : AL) (k : String) : List String := (m.lookup k).getD []

/-- Key presence (`k not in forward`); the built graphs never store
an empty list, so absence coincides with an empty `alGet`. -/
def alHas (m : AL) (k : String) : Bool := (m.lookup k).isSome

/-- `if v not in m[k]: m[k].append(v)` on a `defaultdict(list)`. -/
def alAppendNew (m : AL) (k v : String) : AL :=
  match m.lookup k with
  | none => m ++ [(k, [v])]
  | some l => if v ∈ l then m else m.map fun kv => if kv.1 = k then (kv.1, l ++ [v]) else kv

/-- In-place update of an existing entry's list (Python mutates the
list object held by the dict). -/
def alSet (m : AL) (k : String) (l : List String) : AL :=
  match m.lookup k with
  | some _ => m.map fun kv => if kv.1 = k then (kv.1, l) else kv
  | none => m ++ [(k, l)]

/-- `del m[k]` (remaining keys keep their order). -/
def alRemove (m : AL) (k : String) : AL := m.filter fun kv => kv.1 ≠ k

/-- `unknown_depends.add(n)` (a set; embedded as first-seen order). -/
def addUnknown (unk : List String) (n : String) : List String :=
  if n ∈ unk then unk else unk ++ [n]

structure GraphState where
  forward : AL
  reverse : AL
  unknown : List String
deriving Repr, DecidableEq

/-- The `for rname in requires:` body. -/
def processRequires (names : List String) (tname : String) (st : GraphState) (rname : String) :
    GraphState :=
  if rname ∈ names then
    { st with
        forward := alAppendNew st.forward tname rname,
        reverse := alAppendNew st.reverse rname tname }
  else { st with unknown := addUnknown st.unknown rname }

/-- The `for dname in dependencies:` body. -/
def processDeps (names : List String) (tname : String) (st : GraphState) (dname : String) :
    GraphState :=
  if dname ∈ names then
    { st with
        forward := alAppendNew st.forward dname tname,
        reverse := alAppendNew st.reverse tname dname }
  else { st with unknown := addUnknown st.unknown dname }

/-- The graph-building loop of `Runner.compute`. -/
def buildGraph (reg : List RegTask) : GraphState :=
  let names := reg.map fun t => t.name
  reg.foldl
    (fun st t =>
      let st1 := t.requires.foldl (processRequires names t.name) st
      t.dependencies.foldl (processDeps names t.name) st1)
    { forward := [], reverse := [], unknown := [] }

/-- The `while workset:` peeling loop.  Each pop removes the popped
name from the forward list of every dependent, enqueues dependents
whose lists empty out, and deletes the popped name's reverse entry;
the pop trace is returned alongside the remaining reverse map.  A
name enters the workset at most once, so fuel exceeding the number
of registered names is never exhausted. -/
def peelF : Nat → AL → AL → List String → List String → AL × List String
  | 0, _, rv, _, popped => (rv, popped)
  | fuel + 1, fw, rv, ws, popped =>
      match ws with
      | [] => (rv, popped)
      | name :: ws2 =>
          let dependents := alGet rv name
          let st := dependents.foldl
            (fun (p : AL × List String) i =>
              let d := (alGet p.1 i).erase name
              (alSet p.1 i d, if d = [] then p.2 ++ [i] else p.2))
            (fw, ([] : List String))
          peelF fuel st.1 (alRemove rv name) (ws2 ++ st.2) (popped ++ [name])

/-- Code-point lexicographic string order (what Python `sorted` uses
on `str`). -/
def charListLe : List Char → List Char → Bool
  | [], _ => true
  | _ :: _, [] => false
  | a :: as, b :: bs => if a = b then charListLe as bs else decide (a.toNat < b.toNat)

def strLe (a b : String) : Bool := charListLe a.data b.data

/-- Insertion into a sorted list (for `sorted(reverse)`). -/
def insertSorted (x : String) : List String → List String
  | [] => [x]
  | y :: ys => if strLe x y then x :: y :: ys else y :: insertSorted x ys

/-- `sorted(...)` on strings. -/
def insSort : List String → List String
  | [] => []
  | x :: xs => insertSorted x (insSort xs)

mutual
/-- `place_task(name, task)`: memo hit returns; otherwise place all
dependencies first (tracking the running `max(index, place + 1)`),
then insert `name` at the end of the memo.  Dependency-free tasks get
their registration index.  Fuel decreases on every call (the caller
passes enough for the acyclic case; `none` models non-termination on
a cyclic graph, which the peeling stage has already excluded). -/
def placeTask (deps : String → List String) (ord : String → Nat) :
    Nat → List (String × Nat) → String → Option (List (String × Nat))
  | 0, _, _ => none
  | fuel + 1, memo, name =>
      if (memo.lookup name).isSome then some memo
      else
        match deps name with
        | [] => some (memo ++ [(name, ord name)])
        | d :: ds =>
            match placeDeps deps ord fuel memo 0 (d :: ds) with
            | none => none
            | some st => some (st.1 ++ [(name, st.2)])

/-- The `for dname in tasks_dependencies[name]:` loop of
`place_task`, threading the memo and the running index. -/
def placeDeps (deps : String → List String) (ord : String → Nat) :
    Nat → List (String × Nat) → Nat → List String → Option (List (String × Nat) × Nat)
  | 0, _, _, _ => none
  | _ + 1, memo, index, [] => some (memo, index)
  | fuel + 1, memo, index, d :: ds =>
      match placeTask deps ord fuel memo d with
      | none => none
      | some memo2 =>
          placeDeps deps ord fuel memo2 (max index (((memo2.lookup d).getD 0) + 1)) ds
end

/-- The driver loop `for name, task in all_tasks.items():
place_task(name, task)`. -/
def placeAll (deps : String → List String) (ord : String → Nat) (fuel : Nat) :
    List (String × Nat) → List String → Option (List (String × Nat))
  | memo, [] => some memo
  | memo, n :: ns =>
      match placeTask deps ord fuel memo n with
      | none => none
      | some memo2 => placeAll deps ord fuel memo2 ns

inductive ComputeErr where
  | unknownTasks (names : List String) : ComputeErr
  | cycleTasks (names : List String) : ComputeErr
deriving Repr, DecidableEq

/-- `Runner.compute`, returning the names of the tasks in the order
they are yielded (`yield from task_indexes` iterates the memo's
insertion order).  The DFS fuel `(N + 1) * (E + 2)` (with `N` the
number of registered tasks and `E` the total forward-edge count)
bounds the nesting depth of `place_task`/loop frames on an acyclic
graph, as proved below. -/
def compute (reg : List RegTask) : Except ComputeErr (List String) :=
  let g := buildGraph reg
  if g.unknown ≠ [] then Except.error (ComputeErr.unknownTasks g.unknown)
  else
    let names := reg.map fun t => t.name
    let tasksDeps : AL := names.map fun n => (n, alGet g.forward n)
    let ws := names.filter fun n => !(alHas g.forward n)
    let peeled := peelF (names.length + 1) g.forward g.reverse ws []
    if peeled.1 ≠ [] then
      Except.error (ComputeErr.cycleTasks (insSort (peeled.1.map Prod.fst)))
    else
      let depsFn := fun n => (tasksDeps.lookup n).getD []
      let ordFn := fun n => names.indexOf n
      let e := (tasksDeps.map fun kv => kv.2.length).sum
      match placeAll depsFn ordFn ((names.length + 1) * (e + 2)) [] names with
      | none => Except.error (ComputeErr.cycleTasks [])
      | some memo => Except.ok (memo.map Prod.fst)

/-- The pop trace of the peeling stage (the tasks the iterative
topological peeling manages to remove, in removal order). -/
def peelTrace (reg : List RegTask) : List String :=
  let g := buildGraph reg
  let names := reg.map fun t => t.name
  let ws := names.filter fun n => !(alHas g.forward n)
  (peelF (names.length + 1) g.forward g.reverse ws []).2

/-- The `reverse` map left over after the peeling stage (whose keys
the cycle error reports). -/
def peelRemaining (reg : List RegTask) : AL :=
  let g := buildGraph reg
  let names := reg.map fun t => t.name
  let ws := names.filter fun n => !(alHas g.forward n)
  (peelF (names.length + 1) g.forward g.reverse ws []).1

/-- `Runner.run` as a whole: compute the order (errors propagate, so
no task result is ever produced when `compute` raises), look up each
task's result, and fold the result loop. -/
def runnerRun (reg : List RegTask) (results : String → TaskResult) : Except ComputeErr Int :=
  match compute reg with
  | Except.error e => Except.error e
  | Except.ok order => Except.ok (runExit (order.map results))

/-- The ordering requirement "b before a" induced by one registration:
`a requires b`, or `b` declares `a` in its `dependencies`. -/
def edgeBefore (reg : List RegTask) (b a : String) : Prop :=
  ∃ t ∈ reg, (t.name = a ∧ b ∈ t.requires) ∨ (t.name = b ∧ a ∈ t.dependencies)

/-- Acyclicity of the requires/dependencies edges: some rank function
strictly decreases along every "b before a" edge. -/
def Acyclic (reg : List RegTask) : Prop :=
  ∃ rank : String → Nat, ∀ a b : String, edgeBefore reg b a → rank b < rank a

/-- Invariant of the graph-building loop: `forward` holds exactly the
edge relation `E` accumulated so far, `reverse` mirrors it, the
adjacency lists are duplicate-free and nonempty whenever their key is
present, and no unknown reference has been seen. -/
def InvE (E : String → String → Prop) (st : GraphState) : Prop :=
  (∀ a b, b ∈ alGet st.forward a ↔ E b a) ∧
  (∀ a b, b ∈ alGet st.forward a ↔ a ∈ alGet st.reverse b) ∧
  (∀ k, (alGet st.forward k).Nodup) ∧
  (∀ k, (alGet st.reverse k).Nodup) ∧
  (∀ k, alHas st.forward k = true → alGet st.forward k ≠ []) ∧
  (∀ k, alHas st.reverse k = true → alGet st.reverse k ≠ []) ∧
  st.unknown = []

/-- Loop invariant of the `while workset:` peeling.  The parameters
`fw0`/`rv0` are the graphs as built, `names` the registered names. -/
structure PeelInv (fw0 rv0 : AL) (names : List String)
    (fw rv : AL) (ws popped : List String) : Prop where
  hfilter : ∀ i, alGet fw i = (alGet fw0 i).filter fun d => decide (d ∉ popped)
  hhaseq : ∀ i, alHas fw i = alHas fw0 i
  hrv : rv = rv0.filter fun kv => decide (kv.1 ∉ popped)
  hpnd : popped.Nodup
  hwnd : ws.Nodup
  hdisj : ∀ w ∈ ws, w ∉ popped
  hwsub : ∀ w ∈ ws, w ∈ names
  hpsub : ∀ p ∈ popped, p ∈ names
  hready : ∀ w ∈ ws, ∀ d ∈ alGet fw0 w, d ∈ popped
  hempty : ∀ n ∈ names, alGet fw n = [] → n ∈ popped ∨ n ∈ ws
  hord : ∀ n ∈ popped, ∀ d ∈ alGet fw0 n,
    d ∈ popped ∧ popped.indexOf d < popped.indexOf n

/-! ## DFS placement invariants (`Runner.compute`, stage 3) -/
/-- The memo of `place_task` in a good state: unique keys, and every
key's dependencies placed at strictly earlier positions. -/
def GoodMemo (deps : String → List String) (memo : List (String × Nat)) : Prop :=
  (memo.map Prod.fst).Nodup ∧
  ∀ n ∈ memo.map Prod.fst, ∀ d ∈ deps n,
    d ∈ memo.map Prod.fst ∧
      (memo.map Prod.fst).indexOf d < (memo.map Prod.fst).indexOf n

theorem Char.toNat_ofNat_valid (n : Nat) (hv : n.isValidChar) : (Char.ofNat n).toNat = n := by
  simp only [Char.ofNat]
  rw [dif_pos hv]
  rfl

theorem Char.eq_of_toNat_eq {a b : Char} (h : a.toNat = b.toNat) : a = b :=
  Char.ext (UInt32.ext h)

theorem toNat_lowerChar (c : Char) :
    (lowerChar c).toNat = if 65 ≤ c.toNat ∧ c.toNat ≤ 90 then c.toNat + 32 else c.toNat := by
  unfold lowerChar
  by_cases h : 65 ≤ c.toNat ∧ c.toNat ≤ 90
  · rw [if_pos h, if_pos h]
    exact Char.toNat_ofNat_valid _ (Or.inl (by omega))
  · rw [if_neg h, if_neg h]

theorem toNat_upperChar (c : Char) :
    (upperChar c).toNat = if 97 ≤ c.toNat ∧ c.toNat ≤ 122 then c.toNat - 32 else c.toNat := by
  unfold upperChar
  by_cases h : 97 ≤ c.toNat ∧ c.toNat ≤ 122
  · rw [if_pos h, if_pos h]
    exact Char.toNat_ofNat_valid _ (Or.inl (by omega))
  · rw [if_neg h, if_neg h]

theorem lowerChar_lowerChar (c : Char) : lowerChar (lowerChar c) = lowerChar c := by
  apply Char.eq_of_toNat_eq
  simp only [toNat_lowerChar]
  split_ifs <;> omega

theorem upperChar_lowerChar (c : Char) : upperChar (lowerChar c) = upperChar c := by
  apply Char.eq_of_toNat_eq
  simp only [toNat_upperChar, toNat_lowerChar]
  split_ifs <;> omega

theorem lowerChar_eq_low {c d : Char} (hd : d.toNat < 65) : lowerChar c = d ↔ c = d := by
  constructor
  · intro h
    apply Char.eq_of_toNat_eq
    have := congrArg Char.toNat h
    rw [toNat_lowerChar] at this
    by_cases hc : 65 ≤ c.toNat ∧ c.toNat ≤ 90
    · rw [if_pos hc] at this
      omega
    · rwa [if_neg hc] at this
  · intro h
    subst h
    apply Char.eq_of_toNat_eq
    rw [toNat_lowerChar, if_neg (by omega)]

theorem length_dropWhile_le' {α : Type} (p : α → Bool) (l : List α) :
    (List.dropWhile p l).length ≤ l.length := by
  induction l with
  | nil => simp [List.dropWhile]
  | cons a l ih =>
    rw [List.dropWhile]
    by_cases h : p a
    · rw [h]
      simpa using Nat.le_succ_of_le ih
    · simp [h]

theorem charIEq_lowerChar (p c : Char) : charIEq p (lowerChar c) = charIEq p c := by
  unfold charIEq
  rw [lowerChar_lowerChar]

theorem itemsMatch_lowerChar (items : List (Char × Char)) (c : Char) :
    itemsMatch items (lowerChar c) = itemsMatch items c := by
  unfold itemsMatch
  simp only [lowerChar_lowerChar, upperChar_lowerChar]

theorem clsMatch_lowerChar (content : List Char) (c : Char) :
    clsMatch content c = clsMatch content (lowerChar c) := by
  unfold clsMatch
  split
  · rw [itemsMatch_lowerChar]
  · rw [itemsMatch_lowerChar]

theorem map_lowerChar_end_iff (s : List Char) :
    (s.map lowerChar = [] ∨ s.map lowerChar = ['\n']) ↔ (s = [] ∨ s = ['\n']) := by
  cases s with
  | nil => simp
  | cons c t =>
    cases t with
    | nil =>
      simp only [List.map, List.map_nil, List.cons.injEq, and_true]
      rw [lowerChar_eq_low (show ('\n').toNat < 65 by decide)]
      simp
    | cons d u => simp

theorem tmatchF_map_lowerChar (fuel : Nat) :
    ∀ (ts : List Tok) (s : List Char),
      tmatchF fuel ts (s.map lowerChar) = tmatchF fuel ts s := by
  induction fuel with
  | zero => intro ts s; rfl
  | succ fuel ih =>
    intro ts s
    cases ts with
    | nil =>
      simp only [tmatchF]
      rw [decide_eq_decide]
      exact map_lowerChar_end_iff s
    | cons t ts =>
      cases t with
      | lit p =>
        cases s with
        | nil => rfl
        | cons c s =>
          simp only [List.map, tmatchF]
          rw [charIEq_lowerChar, ih]
      | cls content =>
        cases s with
        | nil => rfl
        | cons c s =>
          simp only [List.map, tmatchF]
          rw [← clsMatch_lowerChar, ih]
      | star2 =>
        cases s with
        | nil => rfl
        | cons c s =>
          simp only [List.map, tmatchF]
          rw [← List.map_cons, ih, ih]
          have hnl : (lowerChar c = '\n') ↔ (c = '\n') :=
            lowerChar_eq_low (show ('\n').toNat < 65 by decide)
          rw [decide_eq_decide.mpr (not_congr hnl)]
      | star1 =>
        cases s with
        | nil => rfl
        | cons c s =>
          simp only [List.map, tmatchF]
          rw [← List.map_cons]
          have hsl : (lowerChar c = '/') ↔ (c = '/') :=
            lowerChar_eq_low (show ('/').toNat < 65 by decide)
          by_cases hc : c = '/'
          · rw [if_pos (hsl.mpr hc), if_pos hc, ih, ih]
          · rw [if_neg (fun h => hc (hsl.mp h)), if_neg hc, ih, ih]

theorem accepts_lowerStr (p s : String) : accepts p (lowerStr s) = accepts p s := by
  unfold accepts lowerStr
  simp only [List.length_map]
  exact tmatchF_map_lowerChar _ _ _

theorem data_append_slash (s : String) : ("/" ++ s).data = '/' :: s.data := rfl

theorem matchPat_lowerStr (s p : String) : matchPat (lowerStr s) p = matchPat s p := by
  unfold matchPat
  rw [accepts_lowerStr]
  have hdata : ("/" ++ lowerStr s).data = ('/' :: s.data).map lowerChar := by
    rw [data_append_slash, List.map_cons]
    have hsl : lowerChar '/' = '/' := by decide
    rw [hsl]
    rfl
  have h2 : accepts p ("/" ++ lowerStr s) = accepts p ("/" ++ s) := by
    unfold accepts
    rw [hdata, data_append_slash]
    simp only [List.length_map, List.length_cons]
    exact tmatchF_map_lowerChar _ _ _
  rw [h2]

theorem File.copy_eq (f : File) : f.copy = f := rfl

/-! ## Association-list lookup lemmas (shared) -/
theorem lookup_eq_none_iff {β : Type} (l : List (String × β)) (k : String) :
    l.lookup k = none ↔ k ∉ l.map Prod.fst := by
  induction l with
  | nil => simp [List.lookup]
  | cons kv t ih =>
    obtain ⟨a, b⟩ := kv
    by_cases h : k = a
    · subst h
      simp [List.lookup]
    · have hb : (k == a) = false := beq_eq_false_iff_ne.mpr h
      simp [List.lookup, hb, ih, h]

theorem lookup_of_mem_nodup {β : Type} (l : List (String × β)) (kv : String × β)
    (hmem : kv ∈ l) (hnd : (l.map Prod.fst).Nodup) : l.lookup kv.1 = some kv.2 := by
  induction l with
  | nil => cases hmem
  | cons hd t ih =>
    rcases List.mem_cons.mp hmem with h | h
    · subst h
      simp [List.lookup]
    · have hne : kv.1 ≠ hd.1 := by
        intro he
        have hm : kv.1 ∈ t.map Prod.fst := List.mem_map_of_mem Prod.fst h
        rw [List.map_cons] at hnd
        exact (List.nodup_cons.mp hnd).1 (he ▸ hm)
      have hnd' : (t.map Prod.fst).Nodup := by
        rw [List.map_cons] at hnd
        exact (List.nodup_cons.mp hnd).2
      have hb : (kv.1 == hd.1) = false := beq_eq_false_iff_ne.mpr hne
      obtain ⟨a, b⟩ := hd
      simp only [List.lookup, hb]
      exact ih h hnd'

theorem mem_of_lookup_eq_some {β : Type} (l : List (String × β)) (k : String) (v : β)
    (h : l.lookup k = some v) : (k, v) ∈ l := by
  induction l with
  | nil => simp [List.lookup] at h
  | cons hd t ih =>
    obtain ⟨a, b⟩ := hd
    by_cases he : k = a
    · subst he
      simp only [List.lookup, beq_self_eq_true] at h
      cases h
      exact List.mem_cons_self _ _
    · have hb : (k == a) = false := beq_eq_false_iff_ne.mpr he
      simp only [List.lookup, hb] at h
      exact List.mem_cons_of_mem _ (ih h)

theorem lookup_append_left {β : Type} (l1 l2 : List (String × β)) (k : String)
    (h : k ∈ l1.map Prod.fst) : (l1 ++ l2).lookup k = l1.lookup k := by
  induction l1 with
  | nil => simp at h
  | cons hd t ih =>
    obtain ⟨a, b⟩ := hd
    by_cases he : k = a
    · subst he
      simp [List.lookup]
    · have hb : (k == a) = false := beq_eq_false_iff_ne.mpr he
      simp only [List.map_cons, List.mem_cons] at h
      rcases h with h | h
      · exact absurd h he
      · simp only [List.cons_append, List.lookup, hb]
        exact ih h

theorem lookup_append_right {β : Type} (l1 l2 : List (String × β)) (k : String)
    (h : k ∉ l1.map Prod.fst) : (l1 ++ l2).lookup k = l2.lookup k := by
  induction l1 with
  | nil => rfl
  | cons hd t ih =>
    obtain ⟨a, b⟩ := hd
    simp only [List.map_cons, List.mem_cons] at h
    push_neg at h
    have hb : (k == a) = false := beq_eq_false_iff_ne.mpr h.1
    simp only [List.cons_append, List.lookup, hb]
    exact ih h.2

theorem lookup_replaceEntry_ne (fl : FileList) (key n : String) (v : File) (h : n ≠ key) :
    (replaceEntry fl key v).lookup n = fl.lookup n := by
  induction fl with
  | nil => rfl
  | cons hd t ih =>
    obtain ⟨a, b⟩ := hd
    by_cases ha : a = key
    · subst ha
      have hb : (n == a) = false := beq_eq_false_iff_ne.mpr (by simpa using h)
      simp only [replaceEntry, List.map_cons] at *
      simp only [if_true]
      simp only [List.lookup, hb]
      exact ih
    · by_cases hn : n = a
      · subst hn
        simp only [replaceEntry, List.map_cons]
        rw [if_neg ha]
        simp [List.lookup]
      · have hb : (n == a) = false := beq_eq_false_iff_ne.mpr hn
        simp only [replaceEntry, List.map_cons] at *
        rw [if_neg ha]
        simp only [List.lookup, hb]
        exact ih

/-! ## Association-list update lemmas (for the scheduler proofs) -/
theorem mapSet_apply {β : Type} (k : String) (l : β) (a : String) (b : β) :
    (if (a, b).1 = k then ((a, b).1, l) else (a, b)) =
      if a = k then (a, l) else (a, b) := rfl

theorem lookup_mapSet_self {β : Type} (m : List (String × β)) (k : String) (l : β) :
    (m.map fun kv => if kv.1 = k then (kv.1, l) else kv).lookup k =
      (m.lookup k).map fun _ => l := by
  induction m with
  | nil => rfl
  | cons hd t ih =>
    obtain ⟨a, b⟩ := hd
    rw [List.map_cons, mapSet_apply]
    by_cases ha : a = k
    · subst ha
      rw [if_pos rfl]
      simp [List.lookup]
    · have hb : (k == a) = false := beq_eq_false_iff_ne.mpr (fun he => ha he.symm)
      rw [if_neg ha]
      simp only [List.lookup, hb]
      exact ih

theorem lookup_mapSet_ne {β : Type} (m : List (String × β)) (k : String) (l : β)
    (k' : String) (h : k' ≠ k) :
    (m.map fun kv => if kv.1 = k then (kv.1, l) else kv).lookup k' = m.lookup k' := by
  induction m with
  | nil => rfl
  | cons hd t ih =>
    obtain ⟨a, b⟩ := hd
    rw [List.map_cons, mapSet_apply]
    by_cases ha : a = k
    · subst ha
      have hb : (k' == a) = false := beq_eq_false_iff_ne.mpr h
      rw [if_pos rfl]
      simp only [List.lookup, hb]
      exact ih
    · rw [if_neg ha]
      by_cases hn : k' = a
      · subst hn
        simp [List.lookup]
      · have hb : (k' == a) = false := beq_eq_false_iff_ne.mpr hn
        simp only [List.lookup, hb]
        exact ih

theorem alGet_alSet_self (m : AL) (k : String) (l : List String) :
    alGet (alSet m k l) k = l := by
  unfold alSet
  cases hm : m.lookup k with
  | some l0 =>
    unfold alGet
    rw [lookup_mapSet_self, hm]
    rfl
  | none =>
    unfold alGet
    rw [lookup_append_right m _ k ((lookup_eq_none_iff m k).mp hm)]
    simp [List.lookup]

theorem alGet_alSet_ne (m : AL) (k : String) (l : List String) (k' : String) (h : k' ≠ k) :
    alGet (alSet m k l) k' = alGet m k' := by
  unfold alSet
  cases hm : m.lookup k with
  | some l0 =>
    unfold alGet
    rw [lookup_mapSet_ne m k l k' h]
  | none =>
    unfold alGet
    by_cases hk : k' ∈ m.map Prod.fst
    · rw [lookup_append_left m _ k' hk]
    · rw [lookup_append_right m _ k' hk]
      have hb : (k' == k) = false := beq_eq_false_iff_ne.mpr h
      simp only [List.lookup, hb]
      rw [(lookup_eq_none_iff m k').mpr hk]

theorem alHas_alSet (m : AL) (k : String) (l : List String) (k' : String) :
    alHas (alSet m k l) k' = if k' = k then true else alHas m k' := by
  unfold alSet alHas
  cases hm : m.lookup k with
  | some l0 =>
    by_cases h : k' = k
    · subst h
      rw [lookup_mapSet_self, hm, if_pos rfl]
      rfl
    · rw [lookup_mapSet_ne m k l k' h, if_neg h]
  | none =>
    by_cases h : k' = k
    · subst h
      rw [lookup_append_right m _ k' ((lookup_eq_none_iff m k').mp hm), if_pos rfl]
      simp [List.lookup]
    · rw [if_neg h]
      by_cases hk : k' ∈ m.map Prod.fst
      · rw [lookup_append_left m _ k' hk]
      · rw [lookup_append_right m _ k' hk]
        have hb : (k' == k) = false := beq_eq_false_iff_ne.mpr h
        simp only [List.lookup, hb]
        rw [(lookup_eq_none_iff m k').mpr hk]

theorem alAppendNew_eq_none (m : AL) (k v : String) (hm : m.lookup k = none) :
    alAppendNew m k v = m ++ [(k, [v])] := by
  unfold alAppendNew
  rw [hm]

theorem alAppendNew_eq_some (m : AL) (k v : String) (l : List String)
    (hm : m.lookup k = some l) :
    alAppendNew m k v =
      if v ∈ l then m else m.map fun kv => if kv.1 = k then (kv.1, l ++ [v]) else kv := by
  unfold alAppendNew
  rw [hm]

theorem alGet_alAppendNew (m : AL) (k v : String) (k' : String) :
    alGet (alAppendNew m k v) k' =
      if k' = k then (if v ∈ alGet m k then alGet m k else alGet m k ++ [v])
      else alGet m k' := by
  cases hm : m.lookup k with
  | none =>
    have hnk : k ∉ m.map Prod.fst := (lookup_eq_none_iff m k).mp hm
    have hget : alGet m k = [] := by unfold alGet; rw [hm]; rfl
    have h1 : alAppendNew m k v = m ++ [(k, [v])] := alAppendNew_eq_none m k v hm
    rw [h1, hget]
    by_cases h : k' = k
    · subst h
      rw [if_pos rfl]
      unfold alGet
      rw [lookup_append_right m _ k' hnk]
      simp [List.lookup]
    · rw [if_neg h]
      unfold alGet
      by_cases hk : k' ∈ m.map Prod.fst
      · rw [lookup_append_left m _ k' hk]
      · rw [lookup_append_right m _ k' hk]
        have hb : (k' == k) = false := beq_eq_false_iff_ne.mpr h
        simp only [List.lookup, hb]
        rw [(lookup_eq_none_iff m k').mpr hk]
  | some l =>
    have hget : alGet m k = l := by unfold alGet; rw [hm]; rfl
    by_cases hv : v ∈ l
    · have hv2 : v ∈ alGet m k := by rw [hget]; exact hv
      have h1 : alAppendNew m k v = m := by rw [alAppendNew_eq_some m k v l hm, if_pos hv]
      rw [h1, if_pos hv2]
      by_cases h : k' = k
      · subst h
        rw [if_pos rfl]
      · rw [if_neg h]
    · have hv2 : v ∉ alGet m k := by rw [hget]; exact hv
      have h1 : alAppendNew m k v =
          m.map fun kv => if kv.1 = k then (kv.1, alGet m k ++ [v]) else kv := by
        rw [alAppendNew_eq_some m k v l hm, if_neg hv, hget]
      rw [h1, if_neg hv2]
      by_cases h : k' = k
      · subst h
        rw [if_pos rfl]
        unfold alGet
        rw [lookup_mapSet_self, hm]
        rfl
      · rw [if_neg h]
        unfold alGet
        rw [lookup_mapSet_ne m k _ k' h]

theorem mem_alGet_alAppendNew (m : AL) (k v x : String) (k' : String) :
    x ∈ alGet (alAppendNew m k v) k' ↔ x ∈ alGet m k' ∨ (k' = k ∧ x = v) := by
  rw [alGet_alAppendNew]
  by_cases h : k' = k
  · subst h
    rw [if_pos rfl]
    by_cases hv : v ∈ alGet m k'
    · rw [if_pos hv]
      constructor
      · exact fun hx => Or.inl hx
      · rintro (hx | ⟨-, rfl⟩)
        · exact hx
        · exact hv
    · rw [if_neg hv]
      simp only [List.mem_append, List.mem_singleton]
      constructor
      · rintro (hx | rfl)
        · exact Or.inl hx
        · exact Or.inr (by simp)
      · rintro (hx | ⟨-, rfl⟩)
        · exact Or.inl hx
        · exact Or.inr rfl
  · rw [if_neg h]
    simp [h]

theorem nodup_alGet_alAppendNew (m : AL) (k v : String) (k' : String)
    (h : (alGet m k').Nodup) : (alGet (alAppendNew m k v) k').Nodup := by
  rw [alGet_alAppendNew]
  by_cases hk : k' = k
  · subst hk
    rw [if_pos rfl]
    by_cases hv : v ∈ alGet m k'
    · rw [if_pos hv]
      exact h
    · rw [if_neg hv]
      exact List.Nodup.append h (List.nodup_singleton v) (by
        intro x hx hxv
        rw [List.mem_singleton] at hxv
        exact hv (hxv ▸ hx))
  · rw [if_neg hk]
    exact h

theorem alHas_alAppendNew (m : AL) (k v : String) (k' : String) :
    alHas (alAppendNew m k v) k' = (alHas m k' || decide (k' = k)) := by
  cases hm : m.lookup k with
  | none =>
    have h1 : alAppendNew m k v = m ++ [(k, [v])] := alAppendNew_eq_none m k v hm
    rw [h1]
    unfold alHas
    by_cases h : k' = k
    · subst h
      rw [lookup_append_right m _ k' ((lookup_eq_none_iff m k').mp hm), hm]
      simp [List.lookup]
    · by_cases hk : k' ∈ m.map Prod.fst
      · rw [lookup_append_left m _ k' hk]
        simp [h]
      · rw [lookup_append_right m _ k' hk]
        have hb : (k' == k) = false := beq_eq_false_iff_ne.mpr h
        simp only [List.lookup, hb]
        rw [(lookup_eq_none_iff m k').mpr hk]
        simp [h]
  | some l =>
    by_cases hv : v ∈ l
    · have h1 : alAppendNew m k v = m := by rw [alAppendNew_eq_some m k v l hm, if_pos hv]
      rw [h1]
      by_cases h : k' = k
      · subst h
        unfold alHas
        simp [hm]
      · simp [h]
    · have h1 : alAppendNew m k v =
          m.map fun kv => if kv.1 = k then (kv.1, l ++ [v]) else kv := by
        rw [alAppendNew_eq_some m k v l hm, if_neg hv]
      rw [h1]
      unfold alHas
      by_cases h : k' = k
      · subst h
        rw [lookup_mapSet_self, hm]
        simp
      · rw [lookup_mapSet_ne m k _ k' h]
        simp [h]

theorem alGet_ne_nil_alAppendNew (m : AL) (k v : String) (k' : String)
    (h : alHas m k' = true → alGet m k' ≠ []) :
    alHas (alAppendNew m k v) k' = true → alGet (alAppendNew m k v) k' ≠ [] := by
  rw [alHas_alAppendNew, alGet_alAppendNew]
  by_cases hk : k' = k
  · subst hk
    rw [if_pos rfl]
    intro _
    by_cases hv : v ∈ alGet m k'
    · rw [if_pos hv]
      intro hnil
      rw [hnil] at hv
      cases hv
    · rw [if_neg hv]
      simp
  · rw [if_neg hk]
    intro hh
    apply h
    simpa [hk] using hh

/-! ## Graph-building invariants (`Runner.compute`, stage 1) -/
theorem alGet_eq_nil_of_not_has (m : AL) (k : String) (h : alHas m k = false) :
    alGet m k = [] := by
  unfold alHas at h
  unfold alGet
  cases hm : m.lookup k with
  | none => rfl
  | some l =>
    rw [hm] at h
    cases h

theorem InvE_congr (E E' : String → String → Prop) (st : GraphState)
    (h : ∀ a b, E b a ↔ E' b a) (hi : InvE E st) : InvE E' st := by
  obtain ⟨h1, h2, h3, h4, h5, h6, h7⟩ := hi
  exact ⟨fun a b => (h1 a b).trans (h a b), h2, h3, h4, h5, h6, h7⟩

theorem InvE_addEdge (E : String → String → Prop) (st : GraphState) (src dst : String)
    (hi : InvE E st) :
    InvE (fun b a => E b a ∨ (a = src ∧ b = dst))
      { st with
          forward := alAppendNew st.forward src dst,
          reverse := alAppendNew st.reverse dst src } := by
  obtain ⟨h1, h2, h3, h4, h5, h6, h7⟩ := hi
  refine ⟨?_, ?_, ?_, ?_, ?_, ?_, h7⟩
  · intro a b
    rw [show ({ st with
        forward := alAppendNew st.forward src dst,
        reverse := alAppendNew st.reverse dst src } : GraphState).forward =
      alAppendNew st.forward src dst from rfl]
    rw [mem_alGet_alAppendNew, h1]
  · intro a b
    rw [show ({ st with
        forward := alAppendNew st.forward src dst,
        reverse := alAppendNew st.reverse dst src } : GraphState).forward =
      alAppendNew st.forward src dst from rfl]
    rw [show ({ st with
        forward := alAppendNew st.forward src dst,
        reverse := alAppendNew st.reverse dst src } : GraphState).reverse =
      alAppendNew st.reverse dst src from rfl]
    rw [mem_alGet_alAppendNew, mem_alGet_alAppendNew, h2]
    constructor
    · rintro (hx | ⟨rfl, rfl⟩)
      · exact Or.inl hx
      · exact Or.inr ⟨rfl, rfl⟩
    · rintro (hx | ⟨rfl, rfl⟩)
      · exact Or.inl hx
      · exact Or.inr ⟨rfl, rfl⟩
  · intro k
    exact nodup_alGet_alAppendNew _ _ _ _ (h3 k)
  · intro k
    exact nodup_alGet_alAppendNew _ _ _ _ (h4 k)
  · intro k
    exact alGet_ne_nil_alAppendNew _ _ _ _ (h5 k)
  · intro k
    exact alGet_ne_nil_alAppendNew _ _ _ _ (h6 k)

theorem InvE_processRequires (names : List String) (tname : String)
    (E : String → String → Prop) (st : GraphState) (rname : String) (hin : rname ∈ names)
    (hi : InvE E st) :
    InvE (fun b a => E b a ∨ (a = tname ∧ b = rname))
      (processRequires names tname st rname) := by
  unfold processRequires
  rw [if_pos hin]
  exact InvE_addEdge E st tname rname hi

theorem InvE_processDeps (names : List String) (tname : String)
    (E : String → String → Prop) (st : GraphState) (dname : String) (hin : dname ∈ names)
    (hi : InvE E st) :
    InvE (fun b a => E b a ∨ (a = dname ∧ b = tname))
      (processDeps names tname st dname) := by
  unfold processDeps
  rw [if_pos hin]
  exact InvE_addEdge E st dname tname hi

theorem InvE_foldRequires (names : List String) (tname : String) :
    ∀ (rs : List String) (st : GraphState) (E : String → String → Prop),
      (∀ r ∈ rs, r ∈ names) → InvE E st →
      InvE (fun b a => E b a ∨ (a = tname ∧ b ∈ rs))
        (rs.foldl (processRequires names tname) st) := by
  intro rs
  induction rs with
  | nil =>
    intro st E _ hi
    exact InvE_congr E _ st (by simp) hi
  | cons r rs ih =>
    intro st E hin hi
    rw [List.foldl_cons]
    have h1 := InvE_processRequires names tname E st r (hin r (List.mem_cons_self _ _)) hi
    have h2 := ih (processRequires names tname st r) _
      (fun x hx => hin x (List.mem_cons_of_mem _ hx)) h1
    refine InvE_congr _ _ _ ?_ h2
    intro a b
    constructor
    · rintro ((he | ⟨rfl, rfl⟩) | ⟨rfl, hb⟩)
      · exact Or.inl he
      · exact Or.inr ⟨rfl, List.mem_cons_self _ _⟩
      · exact Or.inr ⟨rfl, List.mem_cons_of_mem _ hb⟩
    · rintro (he | ⟨rfl, hb⟩)
      · exact Or.inl (Or.inl he)
      · rcases List.mem_cons.mp hb with rfl | hb
        · exact Or.inl (Or.inr ⟨rfl, rfl⟩)
        · exact Or.inr ⟨rfl, hb⟩

theorem InvE_foldDeps (names : List String) (tname : String) :
    ∀ (ds : List String) (st : GraphState) (E : String → String → Prop),
      (∀ d ∈ ds, d ∈ names) → InvE E st →
      InvE (fun b a => E b a ∨ (b = tname ∧ a ∈ ds))
        (ds.foldl (processDeps names tname) st) := by
  intro ds
  induction ds with
  | nil =>
    intro st E _ hi
    exact InvE_congr E _ st (by simp) hi
  | cons d ds ih =>
    intro st E hin hi
    rw [List.foldl_cons]
    have h1 := InvE_processDeps names tname E st d (hin d (List.mem_cons_self _ _)) hi
    have h2 := ih (processDeps names tname st d) _
      (fun x hx => hin x (List.mem_cons_of_mem _ hx)) h1
    refine InvE_congr _ _ _ ?_ h2
    intro a b
    constructor
    · rintro ((he | ⟨rfl, rfl⟩) | ⟨rfl, ha⟩)
      · exact Or.inl he
      · exact Or.inr ⟨rfl, List.mem_cons_self _ _⟩
      · exact Or.inr ⟨rfl, List.mem_cons_of_mem _ ha⟩
    · rintro (he | ⟨rfl, ha⟩)
      · exact Or.inl (Or.inl he)
      · rcases List.mem_cons.mp ha with rfl | ha
        · exact Or.inl (Or.inr ⟨rfl, rfl⟩)
        · exact Or.inr ⟨rfl, ha⟩

theorem InvE_buildFold (names : List String) :
    ∀ (rest : List RegTask) (st : GraphState) (E : String → String → Prop),
      (∀ t ∈ rest, (∀ r ∈ t.requires, r ∈ names) ∧ (∀ d ∈ t.dependencies, d ∈ names)) →
      InvE E st →
      InvE (fun b a => E b a ∨ edgeBefore rest b a)
        (rest.foldl
          (fun st t =>
            let st1 := t.requires.foldl (processRequires names t.name) st
            t.dependencies.foldl (processDeps names t.name) st1)
          st) := by
  intro rest
  induction rest with
  | nil =>
    intro st E _ hi
    refine InvE_congr E _ st ?_ hi
    intro a b
    simp [edgeBefore]
  | cons t rest ih =>
    intro st E hcl hi
    rw [List.foldl_cons]
    have hclt := hcl t (List.mem_cons_self _ _)
    have h1 := InvE_foldRequires names t.name t.requires st E hclt.1 hi
    have h2 := InvE_foldDeps names t.name t.dependencies _ _ hclt.2 h1
    have h3 := ih _ _ (fun u hu => hcl u (List.mem_cons_of_mem _ hu)) h2
    refine InvE_congr _ _ _ ?_ h3
    intro a b
    unfold edgeBefore
    constructor
    · rintro (((he | ⟨rfl, hb⟩) | ⟨rfl, ha⟩) | ⟨u, hu, hcase⟩)
      · exact Or.inl he
      · exact Or.inr ⟨t, List.mem_cons_self _ _, Or.inl ⟨rfl, hb⟩⟩
      · exact Or.inr ⟨t, List.mem_cons_self _ _, Or.inr ⟨rfl, ha⟩⟩
      · exact Or.inr ⟨u, List.mem_cons_of_mem _ hu, hcase⟩
    · rintro (he | ⟨u, hu, hcase⟩)
      · exact Or.inl (Or.inl (Or.inl he))
      · rcases List.mem_cons.mp hu with rfl | hu
        · rcases hcase with ⟨ha, hb⟩ | ⟨hb, ha⟩
          · exact Or.inl (Or.inl (Or.inr ⟨ha.symm ▸ rfl, hb⟩))
          · exact Or.inl (Or.inr ⟨hb.symm ▸ rfl, ha⟩)
        · exact Or.inr ⟨u, hu, hcase⟩

/-- The graph `Runner.compute` builds holds exactly the edges of the
registration list: `b ∈ forward[a]` iff "b before a". -/
theorem buildGraph_spec (reg : List RegTask)
    (hclosed : ∀ t ∈ reg,
      (∀ r ∈ t.requires, r ∈ reg.map fun u => u.name) ∧
      (∀ d ∈ t.dependencies, d ∈ reg.map fun u => u.name)) :
    InvE (edgeBefore reg) (buildGraph reg) := by
  have hinit : InvE (fun _ _ => False) { forward := [], reverse := [], unknown := [] } := by
    refine ⟨?_, ?_, ?_, ?_, ?_, ?_, rfl⟩ <;> intro a <;>
      simp [alGet, alHas, List.lookup]
  have h := InvE_buildFold (reg.map fun u => u.name) reg
    { forward := [], reverse := [], unknown := [] } (fun _ _ => False) hclosed hinit
  refine InvE_congr _ _ _ ?_ h
  intro a b
  simp

/-! ## Peeling-stage invariants (`Runner.compute`, stage 2) -/
theorem nodup_subset_length (l l' : List String) (h : l.Nodup) (hs : l ⊆ l') :
    l.length ≤ l'.length := by
  calc l.length = l.toFinset.card := (List.toFinset_card_of_nodup h).symm
    _ ≤ l'.toFinset.card := Finset.card_le_card (fun x hx => by
        rw [List.mem_toFinset] at *
        exact hs hx)
    _ ≤ l'.length := List.toFinset_card_le l'

theorem indexOf_append_self (l : List String) (a : String) (h : a ∉ l) :
    (l ++ [a]).indexOf a = l.length := by
  induction l with
  | nil => simp
  | cons x t ih =>
    have hax : a ≠ x := by
      intro he
      exact h (he ▸ List.mem_cons_self _ _)
    rw [List.cons_append, List.indexOf_cons_ne _ hax.symm,
      ih (fun hc => h (List.mem_cons_of_mem _ hc))]
    rfl

theorem lookup_filter_key {β : Type} (l : List (String × β)) (p : String → Bool) (k : String)
    (hp : p k = true) : (l.filter fun kv => p kv.1).lookup k = l.lookup k := by
  induction l with
  | nil => rfl
  | cons hd t ih =>
    obtain ⟨a, b⟩ := hd
    by_cases ha : k = a
    · subst ha
      rw [List.filter_cons, if_pos (by simpa using hp)]
      simp [List.lookup]
    · have hb : (k == a) = false := beq_eq_false_iff_ne.mpr ha
      rw [List.filter_cons]
      by_cases hpa : p a = true
      · rw [if_pos (by simpa using hpa)]
        simp only [List.lookup, hb]
        exact ih
      · rw [if_neg (by simpa using hpa)]
        simp only [List.lookup, hb]
        exact ih

/-- What one pop's inner `for i in reverse[name]:` loop does to the
forward map and to the newly-enqueued list. -/
theorem peelStep_spec (name : String) :
    ∀ (dependents : List String), dependents.Nodup →
    ∀ (fw1 : AL) (acc : List String),
      (∀ d ∈ dependents, alHas fw1 d = true) →
      (∀ i, alGet
          (dependents.foldl
            (fun (p : AL × List String) i =>
              let d := (alGet p.1 i).erase name
              (alSet p.1 i d, if d = [] then p.2 ++ [i] else p.2))
            (fw1, acc)).1 i =
        if i ∈ dependents then (alGet fw1 i).erase name else alGet fw1 i) ∧
      (∀ i, alHas
          (dependents.foldl
            (fun (p : AL × List String) i =>
              let d := (alGet p.1 i).erase name
              (alSet p.1 i d, if d = [] then p.2 ++ [i] else p.2))
            (fw1, acc)).1 i = alHas fw1 i) ∧
      (dependents.foldl
          (fun (p : AL × List String) i =>
            let d := (alGet p.1 i).erase name
            (alSet p.1 i d, if d = [] then p.2 ++ [i] else p.2))
          (fw1, acc)).2 =
        acc ++ dependents.filter fun i => decide ((alGet fw1 i).erase name = []) := by
  intro dependents
  induction dependents with
  | nil =>
    intro _ fw1 acc _
    refine ⟨fun i => by simp, fun i => rfl, by simp⟩
  | cons d ds ih =>
    intro hnd fw1 acc hkeys
    have hnd2 := List.nodup_cons.mp hnd
    rw [List.foldl_cons]
    have hfw2get : ∀ i, alGet (alSet fw1 d ((alGet fw1 d).erase name)) i =
        if i = d then (alGet fw1 d).erase name else alGet fw1 i := by
      intro i
      by_cases hi : i = d
      · subst hi
        rw [if_pos rfl, alGet_alSet_self]
      · rw [if_neg hi, alGet_alSet_ne _ _ _ _ hi]
    have hfw2has : ∀ i, alHas (alSet fw1 d ((alGet fw1 d).erase name)) i = alHas fw1 i := by
      intro i
      rw [alHas_alSet]
      by_cases hi : i = d
      · subst hi
        rw [if_pos rfl, hkeys i (List.mem_cons_self _ _)]
      · rw [if_neg hi]
    have hkeys2 : ∀ x ∈ ds, alHas (alSet fw1 d ((alGet fw1 d).erase name)) x = true := by
      intro x hx
      rw [hfw2has]
      exact hkeys x (List.mem_cons_of_mem _ hx)
    obtain ⟨ihget, ihhas, ihacc⟩ := ih hnd2.2 (alSet fw1 d ((alGet fw1 d).erase name))
      (if (alGet fw1 d).erase name = [] then acc ++ [d] else acc) hkeys2
    refine ⟨?_, ?_, ?_⟩
    · intro i
      rw [ihget i]
      by_cases hds : i ∈ ds
      · have hid : i ≠ d := fun he => hnd2.1 (he ▸ hds)
        rw [if_pos hds, if_pos (List.mem_cons_of_mem _ hds), hfw2get, if_neg hid]
      · by_cases hid : i = d
        · subst hid
          rw [if_neg hds, if_pos (List.mem_cons_self _ _), hfw2get, if_pos rfl]
        · rw [if_neg hds, hfw2get, if_neg hid,
            if_neg (by
              intro hc
              rcases List.mem_cons.mp hc with he | he
              · exact hid he
              · exact hds he)]
    · intro i
      rw [ihhas i, hfw2has]
    · rw [ihacc]
      have hfcong : ds.filter
            (fun i => decide ((alGet (alSet fw1 d ((alGet fw1 d).erase name)) i).erase name = [])) =
          ds.filter (fun i => decide ((alGet fw1 i).erase name = [])) := by
        apply List.filter_congr
        intro x hx
        have hxd : x ≠ d := fun he => hnd2.1 (he ▸ hx)
        rw [hfw2get, if_neg hxd]
      rw [hfcong, List.filter_cons]
      by_cases hc : (alGet fw1 d).erase name = []
      · have hcd : decide ((alGet fw1 d).erase name = []) = true := by simp [hc]
        rw [if_pos hc, if_pos hcd]
        simp
      · have hcd : ¬(decide ((alGet fw1 d).erase name = []) = true) := by simp [hc]
        rw [if_neg hc, if_neg hcd]

/-- The peeling loop, run with enough fuel from an invariant state,
terminates with a pop trace that is duplicate-free, topologically
ordered (every forward-dependency of a popped task pops strictly
earlier), and complete: any task all of whose dependencies were
popped is itself popped.  The remaining reverse map consists of the
entries whose key was never popped. -/
theorem peelF_spec (fw0 rv0 : AL) (names : List String)
    (hsync : ∀ a b, b ∈ alGet fw0 a ↔ a ∈ alGet rv0 b)
    (hndF : ∀ k, (alGet fw0 k).Nodup)
    (hndR : ∀ k, (alGet rv0 k).Nodup)
    (hirr : ∀ a, a ∉ alGet fw0 a)
    (hclosedF : ∀ a b, b ∈ alGet fw0 a → b ∈ names ∧ a ∈ names) :
    ∀ (fuel : Nat) (fw rv : AL) (ws popped : List String),
      PeelInv fw0 rv0 names fw rv ws popped →
      names.length + 1 ≤ fuel + popped.length →
      ∃ poppedF,
        peelF fuel fw rv ws popped =
          (rv0.filter fun kv => decide (kv.1 ∉ poppedF), poppedF) ∧
        poppedF.Nodup ∧ (∀ p ∈ poppedF, p ∈ names) ∧
        (∀ n ∈ poppedF, ∀ d ∈ alGet fw0 n,
          d ∈ poppedF ∧ poppedF.indexOf d < poppedF.indexOf n) ∧
        (∀ n ∈ names, (∀ d ∈ alGet fw0 n, d ∈ poppedF) → n ∈ poppedF) ∧
        (∀ p ∈ popped, p ∈ poppedF) := by
  intro fuel
  induction fuel with
  | zero =>
    intro fw rv ws popped inv hfuel
    exfalso
    have hle := nodup_subset_length popped names inv.hpnd (fun x hx => inv.hpsub x hx)
    omega
  | succ fuel ih =>
    intro fw rv ws popped inv hfuel
    cases ws with
    | nil =>
      refine ⟨popped, ?_, inv.hpnd, inv.hpsub, inv.hord, ?_, fun p hp => hp⟩
      · show (rv, popped) = _
        rw [inv.hrv]
      · intro n hn hall
        have h0 : alGet fw n = [] := by
          rw [inv.hfilter n, List.filter_eq_nil_iff]
          intro a ha
          simp [hall a ha]
        rcases inv.hempty n hn h0 with h | h
        · exact h
        · cases h
    | cons name ws2 =>
      have hnameWs : name ∈ name :: ws2 := List.mem_cons_self _ _
      have hnameNp : name ∉ popped := inv.hdisj name hnameWs
      have hnameNames : name ∈ names := inv.hwsub name hnameWs
      have hdeps : alGet rv name = alGet rv0 name := by
        rw [inv.hrv]
        unfold alGet
        rw [lookup_filter_key rv0 (fun x => decide (x ∉ popped)) name (by simp [hnameNp])]
      have hmemD : ∀ i, i ∈ alGet rv name ↔ name ∈ alGet fw0 i := by
        intro i
        rw [hdeps]
        exact (hsync i name).symm
      have hndDeps : (alGet rv name).Nodup := hdeps ▸ hndR name
      have hkeys : ∀ d ∈ alGet rv name, alHas fw d = true := by
        intro d hd
        have hnf : name ∈ alGet fw0 d := (hmemD d).mp hd
        have hne : alGet fw0 d ≠ [] := fun hnil => by
          rw [hnil] at hnf
          cases hnf
        rw [inv.hhaseq d]
        by_contra hf
        have hff : alHas fw0 d = false := by
          cases hh : alHas fw0 d
          · rfl
          · exact absurd hh hf
        exact hne (alGet_eq_nil_of_not_has fw0 d hff)
      obtain ⟨hg, hh, hacc⟩ := peelStep_spec name (alGet rv name) hndDeps fw [] hkeys
      rw [List.nil_append] at hacc
      -- the state after this pop
      have hinv2 : PeelInv fw0 rv0 names
          ((alGet rv name).foldl
            (fun (p : AL × List String) i =>
              let d := (alGet p.1 i).erase name
              (alSet p.1 i d, if d = [] then p.2 ++ [i] else p.2)) (fw, [])).1
          (alRemove rv name)
          (ws2 ++
            ((alGet rv name).foldl
              (fun (p : AL × List String) i =>
                let d := (alGet p.1 i).erase name
                (alSet p.1 i d, if d = [] then p.2 ++ [i] else p.2)) (fw, [])).2)
          (popped ++ [name]) := by
        rw [hacc]
        constructor
        case hfilter =>
          intro i
          rw [hg i]
          by_cases hiD : i ∈ alGet rv name
          · rw [if_pos hiD, inv.hfilter i,
              List.Nodup.erase_eq_filter (List.Nodup.filter _ (hndF i)) name,
              List.filter_filter]
            apply List.filter_congr
            intro x _
            by_cases h1 : x ∈ popped
            · simp [h1]
            · by_cases h2 : x = name <;> simp [h1, h2]
          · rw [if_neg hiD, inv.hfilter i]
            have hnmem : name ∉ alGet fw0 i := fun hc => hiD ((hmemD i).mpr hc)
            apply List.filter_congr
            intro x hx
            have hxn : ¬(x = name) := fun he => hnmem (he ▸ hx)
            by_cases h1 : x ∈ popped <;> simp [h1, hxn]
        case hhaseq =>
          intro i
          rw [hh i, inv.hhaseq i]
        case hrv =>
          rw [inv.hrv]
          unfold alRemove
          rw [List.filter_filter]
          apply List.filter_congr
          intro kv _
          by_cases h1 : kv.1 ∈ popped
          · simp [h1]
          · by_cases h2 : kv.1 = name <;> simp [h1, h2]
        case hpnd =>
          refine List.Nodup.append inv.hpnd (List.nodup_singleton name) ?_
          intro x hx hx2
          rw [List.mem_singleton] at hx2
          exact hnameNp (hx2 ▸ hx)
        case hwnd =>
          have hwnd2 := List.nodup_cons.mp inv.hwnd
          refine List.Nodup.append hwnd2.2 (List.Nodup.filter _ hndDeps) ?_
          intro x hxw hxn
          have hxD : x ∈ alGet rv name := List.mem_of_mem_filter hxn
          have hnf : name ∈ alGet fw0 x := (hmemD x).mp hxD
          have : name ∈ popped := inv.hready x (List.mem_cons_of_mem _ hxw) name hnf
          exact hnameNp this
        case hdisj =>
          intro w hw
          rw [List.mem_append, List.mem_singleton]
          push_neg
          rcases List.mem_append.mp hw with hw | hw
          · refine ⟨inv.hdisj w (List.mem_cons_of_mem _ hw), ?_⟩
            intro he
            have := List.nodup_cons.mp inv.hwnd
            exact this.1 (he ▸ hw)
          · have hxD : w ∈ alGet rv name := List.mem_of_mem_filter hw
            have hnf : name ∈ alGet fw0 w := (hmemD w).mp hxD
            constructor
            · intro hwp
              have := (inv.hord w hwp name hnf).1
              exact hnameNp this
            · intro he
              exact hirr name (he ▸ hnf)
        case hwsub =>
          intro w hw
          rcases List.mem_append.mp hw with hw | hw
          · exact inv.hwsub w (List.mem_cons_of_mem _ hw)
          · have hxD : w ∈ alGet rv name := List.mem_of_mem_filter hw
            have hnf : name ∈ alGet fw0 w := (hmemD w).mp hxD
            exact (hclosedF w name hnf).2
        case hpsub =>
          intro p hp
          rcases List.mem_append.mp hp with hp | hp
          · exact inv.hpsub p hp
          · rw [List.mem_singleton] at hp
            exact hp ▸ hnameNames
        case hready =>
          intro w hw d hd
          rw [List.mem_append, List.mem_singleton]
          rcases List.mem_append.mp hw with hw | hw
          · exact Or.inl (inv.hready w (List.mem_cons_of_mem _ hw) d hd)
          · have hxD : w ∈ alGet rv name := List.mem_of_mem_filter hw
            have hcond := List.of_mem_filter hw
            rw [decide_eq_true_eq] at hcond
            by_cases h1 : d ∈ popped
            · exact Or.inl h1
            · by_cases h2 : d = name
              · exact Or.inr h2
              · exfalso
                have hdfw : d ∈ alGet fw w := by
                  rw [inv.hfilter w, List.mem_filter]
                  exact ⟨hd, by simp [h1]⟩
                have : d ∈ (alGet fw w).erase name :=
                  (List.mem_erase_of_ne h2).mpr hdfw
                rw [hcond] at this
                cases this
        case hempty =>
          intro n hn h0
          rw [hg n] at h0
          by_cases hiD : n ∈ alGet rv name
          · rw [if_pos hiD] at h0
            right
            rw [List.mem_append]
            right
            rw [List.mem_filter]
            exact ⟨hiD, by simp [h0]⟩
          · rw [if_neg hiD] at h0
            rcases inv.hempty n hn h0 with h | h
            · left
              rw [List.mem_append]
              exact Or.inl h
            · rcases List.mem_cons.mp h with rfl | h
              · left
                rw [List.mem_append, List.mem_singleton]
                exact Or.inr rfl
              · right
                rw [List.mem_append]
                exact Or.inl h
        case hord =>
          intro n hn d hd
          rcases List.mem_append.mp hn with hn | hn
          · have hold := inv.hord n hn d hd
            refine ⟨List.mem_append.mpr (Or.inl hold.1), ?_⟩
            rw [List.indexOf_append_of_mem hold.1, List.indexOf_append_of_mem hn]
            exact hold.2
          · rw [List.mem_singleton] at hn
            subst hn
            have hdp : d ∈ popped := inv.hready n hnameWs d hd
            refine ⟨List.mem_append.mpr (Or.inl hdp), ?_⟩
            rw [List.indexOf_append_of_mem hdp, indexOf_append_self popped n hnameNp]
            exact List.indexOf_lt_length.mpr hdp
      have hrec := ih _ _ _ _ hinv2 (by
        rw [List.length_append, List.length_singleton]
        omega)
      obtain ⟨poppedF, heq, hnd, hsub, hord, hcomplete, hmono⟩ := hrec
      refine ⟨poppedF, ?_, hnd, hsub, hord, hcomplete, ?_⟩
      · show peelF (fuel + 1) fw rv (name :: ws2) popped = _
        simp only [peelF]
        exact heq
      · intro p hp
        exact hmono p (List.mem_append.mpr (Or.inl hp))

theorem goodMemo_append (deps : String → List String) (memo : List (String × Nat))
    (name : String) (idx : Nat) (hg : GoodMemo deps memo)
    (hnew : name ∉ memo.map Prod.fst)
    (hdeps : ∀ d ∈ deps name, d ∈ memo.map Prod.fst) :
    GoodMemo deps (memo ++ [(name, idx)]) := by
  obtain ⟨hnd, hord⟩ := hg
  have hkeys : (memo ++ [(name, idx)]).map Prod.fst = memo.map Prod.fst ++ [name] := by
    rw [List.map_append]
    rfl
  constructor
  · rw [hkeys]
    refine List.Nodup.append hnd (List.nodup_singleton name) ?_
    intro x hx hx2
    rw [List.mem_singleton] at hx2
    exact hnew (hx2 ▸ hx)
  · intro n hn d hd
    rw [hkeys] at hn ⊢
    rcases List.mem_append.mp hn with hn | hn
    · have hold := hord n hn d hd
      refine ⟨List.mem_append.mpr (Or.inl hold.1), ?_⟩
      rw [List.indexOf_append_of_mem hold.1, List.indexOf_append_of_mem hn]
      exact hold.2
    · rw [List.mem_singleton] at hn
      subst hn
      have hdm := hdeps d hd
      refine ⟨List.mem_append.mpr (Or.inl hdm), ?_⟩
      rw [List.indexOf_append_of_mem hdm, indexOf_append_self _ _ hnew]
      exact List.indexOf_lt_length.mpr hdm

/-- Success and soundness of the memoized DFS placement, by induction
on the fuel.  `rank` decreases along dependencies and `E` bounds the
length of every dependency list, so fuel `(rank + 1) * (E + 2)`
suffices for `place_task` and the nesting never reaches 0. -/
theorem place_spec (deps : String → List String) (ord : String → Nat) (rank : String → Nat)
    (E : Nat) (names : List String)
    (hrk : ∀ n, ∀ d ∈ deps n, rank d < rank n)
    (hB : ∀ n, (deps n).length ≤ E)
    (hclosedD : ∀ n, ∀ d ∈ deps n, d ∈ names) :
    ∀ fuel : Nat,
      (∀ (memo : List (String × Nat)) (name : String),
        GoodMemo deps memo → (rank name + 1) * (E + 2) ≤ fuel →
        ∃ ext, placeTask deps ord fuel memo name = some (memo ++ ext) ∧
          GoodMemo deps (memo ++ ext) ∧ name ∈ (memo ++ ext).map Prod.fst ∧
          (∀ k ∈ ext.map Prod.fst, rank k ≤ rank name) ∧
          (∀ k ∈ ext.map Prod.fst, k = name ∨ k ∈ names)) ∧
      (∀ (memo : List (String × Nat)) (index : Nat) (ds : List String) (R : Nat),
        GoodMemo deps memo → (∀ d ∈ ds, rank d < R) → (∀ d ∈ ds, d ∈ names) →
        R * (E + 2) + ds.length + 1 ≤ fuel →
        ∃ ext index2,
          placeDeps deps ord fuel memo index ds = some (memo ++ ext, index2) ∧
          GoodMemo deps (memo ++ ext) ∧ (∀ d ∈ ds, d ∈ (memo ++ ext).map Prod.fst) ∧
          (∀ k ∈ ext.map Prod.fst, rank k < R) ∧
          (∀ k ∈ ext.map Prod.fst, k ∈ names)) := by
  intro fuel
  induction fuel with
  | zero =>
    constructor
    · intro memo name _ hf
      exfalso
      have : 1 ≤ (rank name + 1) * (E + 2) := Nat.one_le_iff_ne_zero.mpr (by positivity)
      omega
    · intro memo index ds R _ _ _ hf
      exfalso
      omega
  | succ fuel ih =>
    constructor
    · -- placeTask
      intro memo name hg hf
      by_cases hhit : (memo.lookup name).isSome
      · refine ⟨[], ?_, by simpa using hg, ?_, by simp, by simp⟩
        · show placeTask deps ord (fuel + 1) memo name = some (memo ++ [])
          unfold placeTask
          rw [if_pos hhit]
          simp
        · obtain ⟨v, hv⟩ := Option.isSome_iff_exists.mp hhit
          have := mem_of_lookup_eq_some memo name v hv
          rw [List.append_nil]
          exact List.mem_map_of_mem Prod.fst this
      · have hnmem : name ∉ memo.map Prod.fst := by
          rw [← lookup_eq_none_iff]
          cases hl : memo.lookup name
          · rfl
          · rw [hl] at hhit
            simp at hhit
        cases hds : deps name with
        | nil =>
          refine ⟨[(name, ord name)], ?_, ?_, ?_, ?_, ?_⟩
          · unfold placeTask
            rw [if_neg hhit, hds]
          · exact goodMemo_append deps memo name (ord name) hg hnmem (by rw [hds]; simp)
          · simp
          · intro k hk
            simp only [List.map_cons, List.map_nil, List.mem_singleton] at hk
            subst hk
            exact Nat.le_refl _
          · intro k hk
            simp only [List.map_cons, List.map_nil, List.mem_singleton] at hk
            exact Or.inl hk
        | cons d0 ds0 =>
          have hmul : (rank name + 1) * (E + 2) = rank name * (E + 2) + (E + 2) :=
            Nat.succ_mul _ _
          have hlen : (deps name).length ≤ E := hB name
          rw [hds] at hlen
          have hfd : rank name * (E + 2) + (d0 :: ds0).length + 1 ≤ fuel := by omega
          have hR : ∀ d ∈ d0 :: ds0, rank d < rank name := by
            rw [← hds]
            exact hrk name
          have hDn : ∀ d ∈ d0 :: ds0, d ∈ names := by
            rw [← hds]
            exact hclosedD name
          obtain ⟨ext, index2, hpd, hg2, hall, hrlt, hnm⟩ :=
            ih.2 memo 0 (d0 :: ds0) (rank name) hg hR hDn hfd
          have hnmem2 : name ∉ (memo ++ ext).map Prod.fst := by
            rw [List.map_append, List.mem_append]
            push_neg
            refine ⟨hnmem, ?_⟩
            intro hc
            exact absurd rfl (Nat.ne_of_lt (hrlt name hc)).symm.elim
          refine ⟨ext ++ [(name, index2)], ?_, ?_, ?_, ?_, ?_⟩
          · have hstep : placeTask deps ord (fuel + 1) memo name =
                match placeDeps deps ord fuel memo 0 (d0 :: ds0) with
                | none => none
                | some st => some (st.1 ++ [(name, st.2)]) := by
              unfold placeTask
              rw [if_neg hhit, hds]
            rw [hstep, hpd]
            show some ((memo ++ ext) ++ [(name, index2)]) = _
            rw [List.append_assoc]
          · have := goodMemo_append deps (memo ++ ext) name index2 hg2 hnmem2
              (by rw [hds]; exact hall)
            rwa [List.append_assoc] at this
          · rw [List.map_append, List.map_append]
            simp
          · intro k hk
            rw [List.map_append, List.mem_append] at hk
            rcases hk with hk | hk
            · exact Nat.le_of_lt (hrlt k hk)
            · simp only [List.map_cons, List.map_nil, List.mem_singleton] at hk
              subst hk
              exact Nat.le_refl _
          · intro k hk
            rw [List.map_append, List.mem_append] at hk
            rcases hk with hk | hk
            · exact Or.inr (hnm k hk)
            · simp only [List.map_cons, List.map_nil, List.mem_singleton] at hk
              exact Or.inl hk
    · -- placeDeps
      intro memo index ds R hg hR hDn hf
      cases ds with
      | nil =>
        refine ⟨[], index, ?_, by simpa using hg, by simp, by simp, by simp⟩
        unfold placeDeps
        simp
      | cons d ds =>
        have hrdle : rank d + 1 ≤ R := hR d (List.mem_cons_self _ _)
        have hmule : (rank d + 1) * (E + 2) ≤ R * (E + 2) :=
          Nat.mul_le_mul_right _ hrdle
        have hft : (rank d + 1) * (E + 2) ≤ fuel := by
          simp only [List.length_cons] at hf
          omega
        obtain ⟨ext1, hpt, hg1, hdm, hrle1, hnm1⟩ := ih.1 memo d hg hft
        have hfd : R * (E + 2) + ds.length + 1 ≤ fuel := by
          simp only [List.length_cons] at hf
          omega
        obtain ⟨ext2, index2, hpd, hg2, hall2, hrlt2, hnm2⟩ :=
          ih.2 (memo ++ ext1) (max index (((memo ++ ext1).lookup d).getD 0 + 1)) ds R hg1
            (fun x hx => hR x (List.mem_cons_of_mem _ hx))
            (fun x hx => hDn x (List.mem_cons_of_mem _ hx)) hfd
        refine ⟨ext1 ++ ext2, index2, ?_, ?_, ?_, ?_, ?_⟩
        · have hstep : placeDeps deps ord (fuel + 1) memo index (d :: ds) =
              match placeTask deps ord fuel memo d with
              | none => none
              | some memo2 =>
                  placeDeps deps ord fuel memo2
                    (max index (((memo2.lookup d).getD 0) + 1)) ds := by
            conv_lhs => unfold placeDeps
          rw [hstep, hpt]
          show placeDeps deps ord fuel (memo ++ ext1)
              (max index (((memo ++ ext1).lookup d).getD 0 + 1)) ds = _
          rw [hpd]
          rw [List.append_assoc]
        · rwa [List.append_assoc] at hg2
        · intro x hx
          rcases List.mem_cons.mp hx with rfl | hx
          · rw [← List.append_assoc]
            rw [List.map_append, List.mem_append]
            left
            exact hdm
          · rw [← List.append_assoc]
            exact hall2 x hx
        · intro k hk
          rw [List.map_append, List.mem_append] at hk
          rcases hk with hk | hk
          · exact Nat.lt_of_le_of_lt (hrle1 k hk) (hR d (List.mem_cons_self _ _))
          · exact hrlt2 k hk
        · intro k hk
          rw [List.map_append, List.mem_append] at hk
          rcases hk with hk | hk
          · rcases hnm1 k hk with rfl | hk2
            · exact hDn k (List.mem_cons_self _ _)
            · exact hk2
          · exact hnm2 k hk

/-- The driver loop places every requested name. -/
theorem placeAll_spec (deps : String → List String) (ord : String → Nat)
    (rank : String → Nat) (E : Nat) (names : List String)
    (hrk : ∀ n, ∀ d ∈ deps n, rank d < rank n)
    (hB : ∀ n, (deps n).length ≤ E)
    (hclosedD : ∀ n, ∀ d ∈ deps n, d ∈ names) (fuel : Nat) :
    ∀ (ns : List String) (memo : List (String × Nat)),
      GoodMemo deps memo →
      (∀ n ∈ ns, (rank n + 1) * (E + 2) ≤ fuel) →
      (∀ k ∈ memo.map Prod.fst, k ∈ names) → (∀ n ∈ ns, n ∈ names) →
      ∃ memoF, placeAll deps ord fuel memo ns = some memoF ∧
        GoodMemo deps memoF ∧ (∀ n ∈ ns, n ∈ memoF.map Prod.fst) ∧
        (∀ k ∈ memoF.map Prod.fst, k ∈ names) ∧
        (∀ k ∈ memo.map Prod.fst, k ∈ memoF.map Prod.fst) := by
  intro ns
  induction ns with
  | nil =>
    intro memo hg _ hms _
    exact ⟨memo, rfl, hg, by simp, hms, fun k hk => hk⟩
  | cons n ns ih =>
    intro memo hg hfuel hms hns
    obtain ⟨ext, hpt, hg2, hmem, _, hnm⟩ :=
      (place_spec deps ord rank E names hrk hB hclosedD fuel).1 memo n hg
        (hfuel n (List.mem_cons_self _ _))
    obtain ⟨memoF, hrest, hgF, hmemF, hsubF, hmonoF⟩ := ih (memo ++ ext) hg2
      (fun x hx => hfuel x (List.mem_cons_of_mem _ hx))
      (by
        intro k hk
        rw [List.map_append, List.mem_append] at hk
        rcases hk with hk | hk
        · exact hms k hk
        · rcases hnm k hk with rfl | hk2
          · exact hns k (List.mem_cons_self _ _)
          · exact hk2)
      (fun x hx => hns x (List.mem_cons_of_mem _ hx))
    refine ⟨memoF, ?_, hgF, ?_, hsubF, ?_⟩
    · unfold placeAll
      rw [hpt]
      exact hrest
    · intro x hx
      rcases List.mem_cons.mp hx with rfl | hx
      · exact hmonoF x hmem
      · exact hmemF x hx
    · intro k hk
      apply hmonoF
      rw [List.map_append, List.mem_append]
      exact Or.inl hk

/-- Looking up a key in `names.map fun n => (n, g n)` (the
`tasks_dependencies` table of `compute`) returns `g` of the key, or
nothing when the key is not a registered name. -/
theorem lookup_map_pair (g : String → List String) :
    ∀ (ns : List String) (n : String),
      (n ∈ ns → (ns.map fun m => (m, g m)).lookup n = some (g n)) ∧
      (n ∉ ns → (ns.map fun m => (m, g m)).lookup n = none) := by
  intro ns
  induction ns with
  | nil =>
    intro n
    exact ⟨fun h => absurd h (List.not_mem_nil n), fun _ => rfl⟩
  | cons m ms ih =>
    intro n
    by_cases hmn : n = m
    · subst hmn
      constructor
      · intro _
        simp [List.lookup]
      · intro h
        exact absurd (List.mem_cons_self _ _) h
    · have hb : (n == m) = false := beq_eq_false_iff_ne.mpr hmn
      constructor
      · intro h
        rcases List.mem_cons.mp h with he | hm2
        · exact absurd he hmn
        · simp only [List.map_cons, List.lookup, hb]
          exact (ih n).1 hm2
      · intro h
        simp only [List.map_cons, List.lookup, hb]
        exact (ih n).2 (fun hc => h (List.mem_cons_of_mem _ hc))

/-! ## Claim C8 — pattern matcher -/
/-- C8: `match("a/b", "a/**")` is true, `match("a", "a/**")` is false,
`match("a/b/c.txt", "**.txt")` is true; matching is case-insensitive
(lower-casing the name never changes the result) and anchored: the
result is exactly "the compiled regex accepts the name or the name
with a leading slash"; and `match` is a pure function of its two
arguments. -/
theorem C8_pattern_matcher :
    matchPat "a/b" "a/**" = true ∧
    matchPat "a" "a/**" = false ∧
    matchPat "a/b/c.txt" "**.txt" = true ∧
    (∀ s p : String, matchPat (lowerStr s) p = matchPat s p) ∧
    (∀ s p : String, matchPat s p = (accepts p s || accepts p ("/" ++ s))) ∧
    (∀ s p : String, matchPat s p = matchPat s p) :=
  ⟨by decide, by decide, by decide, matchPat_lowerStr, fun _ _ => rfl, fun _ _ => rfl⟩

/-! ## Claim C6 — `Task.run` boundary conversions -/
/-- C6: with the kind check passed, `Task.run` converts an ordinary
exception to `EXCEPTION`, `SystemExit` to `SUCCESS_EXIT` exactly for
status code 0 and `FAILURE_EXIT` otherwise, `KeyboardInterrupt` to
`KEYBOARD_INTERRUPT`, and coerces a boolean return to
`SUCCESS`/`FAILURE` by truthiness; being a total function into
`TaskResult`, it never propagates. -/
theorem C6_task_boundary :
    taskRun true FnOutcome.exc = TaskResult.EXCEPTION ∧
    (∀ c : Option Int, taskRun true (FnOutcome.sysExit c) =
      if c = some 0 then TaskResult.SUCCESS_EXIT else TaskResult.FAILURE_EXIT) ∧
    taskRun true FnOutcome.interrupt = TaskResult.KEYBOARD_INTERRUPT ∧
    (∀ b : Bool, taskRun true (FnOutcome.retBool b) =
      if b then TaskResult.SUCCESS else TaskResult.FAILURE) :=
  ⟨rfl, fun _ => rfl, rfl, fun _ => rfl⟩

/-! ## Claim C7 — `Runner.run` exit codes -/
theorem runExitAux_append_cont (pre : List TaskResult)
    (h : ∀ x ∈ pre, x = TaskResult.SUCCESS ∨ x = TaskResult.SKIPPED) (acc : Int)
    (r : TaskResult) (rest : List TaskResult) :
    runExitAux acc (pre ++ r :: rest) = runExitAux 0 (r :: rest) := by
  induction pre generalizing acc with
  | nil => rfl
  | cons x pre ih =>
    have hx := h x (by simp)
    have hrec : ∀ x ∈ pre, x = TaskResult.SUCCESS ∨ x = TaskResult.SKIPPED :=
      fun y hy => h y (by simp [hy])
    rcases hx with hx | hx <;> subst hx <;>
      simpa [runExitAux, TaskResult.toInt] using ih hrec _

theorem runExitAux_all_cont (rs : List TaskResult)
    (h : ∀ x ∈ rs, x = TaskResult.SUCCESS ∨ x = TaskResult.SKIPPED) :
    ∀ acc : Int, runExitAux acc rs = (rs.map TaskResult.toInt).getLastD acc := by
  induction rs with
  | nil => intro acc; rfl
  | cons x rs ih =>
    intro acc
    have hx := h x (by simp)
    have hrec : ∀ y ∈ rs, y = TaskResult.SUCCESS ∨ y = TaskResult.SKIPPED :=
      fun y hy => h y (by simp [hy])
    rcases hx with hx | hx <;> subst hx
    · calc runExitAux acc (TaskResult.SUCCESS :: rs) = runExitAux 1 rs := rfl
        _ = (rs.map TaskResult.toInt).getLastD 1 := ih hrec 1
        _ = ((TaskResult.SUCCESS :: rs).map TaskResult.toInt).getLastD acc := by
            rw [List.map_cons, List.getLastD_cons]
            rfl
    · calc runExitAux acc (TaskResult.SKIPPED :: rs) = runExitAux 2 rs := rfl
        _ = (rs.map TaskResult.toInt).getLastD 2 := ih hrec 2
        _ = ((TaskResult.SKIPPED :: rs).map TaskResult.toInt).getLastD acc := by
            rw [List.map_cons, List.getLastD_cons]
            rfl

/-- C7 (amended): `Runner.run` processes results in order; after any
run of `SUCCESS`/`SKIPPED` results, the first `SUCCESS_EXIT` gives
exit code 0, the first `KEYBOARD_INTERRUPT` gives 2, and any of
`FAILURE`/`EXCEPTION`/`FAILURE_EXIT` gives 1; but when no task halts
the run the returned value is the raw `IntEnum` value of the *last*
result (1 after `SUCCESS`, 2 after `SKIPPED`) rather than 0, and it
is 0 only for an empty task list. -/
theorem C7_run_exit_codes :
    (∀ (pre : List TaskResult) (r : TaskResult) (rest : List TaskResult),
      (∀ x ∈ pre, x = TaskResult.SUCCESS ∨ x = TaskResult.SKIPPED) →
      (r = TaskResult.SUCCESS_EXIT → runExit (pre ++ r :: rest) = 0) ∧
      (r = TaskResult.KEYBOARD_INTERRUPT → runExit (pre ++ r :: rest) = 2) ∧
      (r = TaskResult.FAILURE ∨ r = TaskResult.EXCEPTION ∨ r = TaskResult.FAILURE_EXIT →
        runExit (pre ++ r :: rest) = 1)) ∧
    (∀ rs : List TaskResult,
      (∀ x ∈ rs, x = TaskResult.SUCCESS ∨ x = TaskResult.SKIPPED) →
      runExit rs = (rs.map TaskResult.toInt).getLastD 0) ∧
    runExit [TaskResult.SUCCESS] = 1 ∧ runExit [TaskResult.SKIPPED] = 2 ∧ runExit [] = 0 := by
  refine ⟨?_, ?_, rfl, rfl, rfl⟩
  · intro pre r rest h
    rw [runExit, runExitAux_append_cont pre h]
    refine ⟨?_, ?_, ?_⟩
    · intro hr; subst hr; rfl
    · intro hr; subst hr; rfl
    · intro hr; rcases hr with hr | hr | hr <;> subst hr <;> rfl
  · intro rs h
    exact runExitAux_all_cont rs h 0

/-- C7 counterexample: a run whose single task returns `SUCCESS`
falls through the loop and returns exit code 1, not 0 as claimed. -/
theorem C7_counterexample : runExit [TaskResult.SUCCESS] = 1 ∧ ¬((1 : Int) = 0) :=
  ⟨rfl, by decide⟩

/-- C7 witness: the amended theorem applied at concrete inputs. -/
theorem C7_witness :
    runExit [TaskResult.SUCCESS, TaskResult.FAILURE] = 1 ∧
    runExit [TaskResult.SUCCESS, TaskResult.SKIPPED] =
      (([TaskResult.SUCCESS, TaskResult.SKIPPED]).map TaskResult.toInt).getLastD 0 :=
  ⟨((C7_run_exit_codes.1 [TaskResult.SUCCESS] TaskResult.FAILURE [] (by decide)).2.2
      (Or.inl rfl)),
    C7_run_exit_codes.2.1 [TaskResult.SUCCESS, TaskResult.SKIPPED] (by decide)⟩

/-! ## Claim C3 — packager `write_file` on `path = None` -/
/-- C3 (amended): on a leaf file with `path = None` the zip, plain
directory and disk-image packagers raise, but the tar packager does
not: it silently emits a zero-size directory-type entry. -/
theorem C3_write_file_none (name base : String) (xbit : Bool) (dt : Nat) (notime : Bool)
    (statSize statMtime : Nat) (statIsReg : Bool) (now : Nat) :
    (∃ msg, zipWriteFile name none xbit dt = Except.error msg) ∧
    (∃ msg, dirWriteFile base name none xbit = Except.error msg) ∧
    (∃ msg, dmgWriteFile base name none xbit = Except.error msg) ∧
    (∃ entry, tarWriteFile notime name none xbit statSize statMtime statIsReg now =
        Except.ok entry ∧ entry.isDirType = true ∧ entry.size = 0) :=
  ⟨⟨_, rfl⟩, ⟨_, rfl⟩, ⟨_, rfl⟩, ⟨_, rfl, rfl, rfl⟩⟩

/-- C3 counterexample: `TarPackager.write_file` with `path = None`
produces an entry instead of raising. -/
theorem C3_counterexample :
    tarWriteFile false "a" none false 0 0 false 123 =
      Except.ok
        { name := "a", size := 0, mtime := 123, isDirType := true, mode := 0o644,
          uid := 1000, gid := 1000, uname := "renpy", gname := "renpy", withData := false } :=
  rfl

/-! ## Claim C2 — `_check_filelists` and the unchecked renpy patterns -/
/-- C2: the code does validate package-referenced lists, archives and
game patterns, but the loop labelled "RenPy pattern" iterates
`game_patterns` again, so a renpy pattern targeting an unknown file
list is accepted silently (first conjunct), while the same rule in
the game-pattern domain is rejected (third conjunct). -/
theorem C2_renpy_patterns_unchecked :
    checkFilelists [Package.mk "pkg" ["a"]] [] [] [("x", some ["bad"])] = Except.ok ["a"] ∧
    ¬("bad" ∈ (["a"] : List String)) ∧
    checkFilelists [Package.mk "pkg" ["a"]] [] [("x", some ["bad"])] [] =
      Except.error (CheckErr.mk "Game pattern x" ["bad"]) :=
  ⟨rfl, by decide, rfl⟩

/-! ## Claim C10 — control characters in `classify_directory` -/
/-- C10: an entry whose relative name contains an ASCII control
character (0x00–0x19) is skipped outright: the walk examines it and
produces no effect at all — no file-list add, no "doesn't match"
report, and (for a directory) no visit of any child. -/
theorem C10_control_char_skip (pats : List (String × Option (List String)))
    (name : String) (node : FSNode) (h : hasControlChar name = true) :
    walk pats name node = [Eff.call name] := by
  cases node with
  | mk path isDir children => simp [walk, h]

/-! ## Merge lemmas for Claim C9 -/
theorem add_fresh (acc : FileList) (f : File) (hk : checkFileName f.name = true)
    (hlook : acc.lookup f.name = none) :
    FileList.add acc f = Except.ok (acc ++ [(f.name, f)]) := by
  unfold FileList.add setItem
  rw [hk, hlook]
  simp [File.copy_eq]

theorem foldlM_add_fresh (files : List File) :
    ∀ acc : FileList,
      (∀ f ∈ files, checkFileName f.name = true) →
      (∀ f ∈ files, f.name ∉ acc.map Prod.fst) →
      (files.map File.name).Nodup →
      files.foldlM FileList.add acc = Except.ok (acc ++ files.map fun f => (f.name, f)) := by
  induction files with
  | nil =>
    intro acc _ _ _
    simp [List.foldlM, pure, Except.pure]
  | cons f fs ih =>
    intro acc hchk hdisj hnd
    have hk := hchk f (List.mem_cons_self _ _)
    have hlook : acc.lookup f.name = none :=
      (lookup_eq_none_iff acc f.name).mpr (hdisj f (List.mem_cons_self _ _))
    have hstep := add_fresh acc f hk hlook
    rw [List.map_cons] at hnd
    have hnd2 := List.nodup_cons.mp hnd
    have hrec := ih (acc ++ [(f.name, f)])
      (fun g hg => hchk g (List.mem_cons_of_mem _ hg))
      (fun g hg => by
        simp only [List.map_append, List.mem_append]
        push_neg
        refine ⟨hdisj g (List.mem_cons_of_mem _ hg), ?_⟩
        simp only [List.map_cons, List.map_nil, List.mem_singleton]
        intro he
        exact hnd2.1 (he ▸ List.mem_map_of_mem File.name hg))
      hnd2.2
    simp only [List.foldlM_cons, hstep]
    show fs.foldlM FileList.add (acc ++ [(f.name, f)]) = _
    rw [hrec]
    simp

theorem mergeStep_fresh (seen : FileList) (rv : List File) (f : File)
    (hlook : seen.lookup f.name = none) :
    mergeStep (seen, rv) f = Except.ok (seen ++ [(f.name, f)], rv ++ [f]) := by
  unfold mergeStep
  rw [hlook]
  simp [File.copy_eq]

theorem foldlM_mergeStep_fresh (fl : FileList) :
    ∀ (seen : FileList) (rv : List File),
      (∀ kv ∈ fl, kv.2.name = kv.1) →
      (∀ kv ∈ fl, kv.1 ∉ seen.map Prod.fst) →
      (fl.map Prod.fst).Nodup →
      fl.foldlM (fun st kv => mergeStep st kv.2) (seen, rv) =
        Except.ok (seen ++ fl, rv ++ fl.map fun kv => kv.2) := by
  induction fl with
  | nil =>
    intro seen rv _ _ _
    simp [List.foldlM, pure, Except.pure]
  | cons kv rest ih =>
    intro seen rv hname hdisj hnd
    have hnm := hname kv (List.mem_cons_self _ _)
    have hlook : seen.lookup kv.2.name = none := by
      rw [hnm]
      exact (lookup_eq_none_iff seen kv.1).mpr (hdisj kv (List.mem_cons_self _ _))
    have hstep := mergeStep_fresh seen rv kv.2 hlook
    have hkv : (kv.2.name, kv.2) = kv := by
      rw [hnm]
    rw [List.map_cons] at hnd
    have hnd2 := List.nodup_cons.mp hnd
    have hrec := ih (seen ++ [(kv.2.name, kv.2)]) (rv ++ [kv.2])
      (fun g hg => hname g (List.mem_cons_of_mem _ hg))
      (fun g hg => by
        simp only [List.map_append, List.mem_append]
        push_neg
        refine ⟨hdisj g (List.mem_cons_of_mem _ hg), ?_⟩
        simp only [List.map_cons, List.map_nil, List.mem_singleton, hnm]
        intro he
        exact hnd2.1 (he ▸ List.mem_map_of_mem Prod.fst hg))
      hnd2.2
    simp only [List.foldlM_cons, hstep]
    show rest.foldlM (fun st kv => mergeStep st kv.2) (seen ++ [(kv.2.name, kv.2)], rv ++ [kv.2]) = _
    rw [hrec, hkv]
    simp

theorem mergeStep_eq_some (seen : FileList) (rv : List File) (f s0 : File)
    (h : seen.lookup f.name = some s0) :
    mergeStep (seen, rv) f =
      match mergeFiles s0 f with
      | MergeOutcome.keepFirst => Except.ok (seen, rv)
      | MergeOutcome.useSecond f2 =>
          Except.ok (replaceEntry seen f.name f2.copy, rv ++ [f2.copy])
      | MergeOutcome.conflict => Except.error (FLError.conflict s0 f) := by
  unfold mergeStep
  rw [h]

theorem mergeStep_preserves_other (seen : FileList) (rv : List File) (f : File)
    (n : String) (x : File) (hn : n ≠ f.name) (hx : seen.lookup n = some x) :
    ∀ res, mergeStep (seen, rv) f = Except.ok res → res.1.lookup n = some x := by
  intro res hres
  have hmemn : n ∈ seen.map Prod.fst :=
    List.mem_map_of_mem Prod.fst (mem_of_lookup_eq_some seen n x hx)
  cases hsl : seen.lookup f.name with
  | none =>
    rw [mergeStep_fresh seen rv f hsl] at hres
    cases hres
    rw [lookup_append_left seen _ n hmemn]
    exact hx
  | some s0 =>
    rw [mergeStep_eq_some seen rv f s0 hsl] at hres
    cases hmf : mergeFiles s0 f with
    | keepFirst =>
      rw [hmf] at hres
      cases hres
      exact hx
    | useSecond f2 =>
      rw [hmf] at hres
      cases hres
      rw [lookup_replaceEntry_ne seen f.name n f2.copy hn]
      exact hx
    | conflict =>
      rw [hmf] at hres
      cases hres

theorem foldlM_mergeStep_conflict (ys : FileList) :
    ∀ (seen : FileList) (rv : List File) (n : String) (x y : File),
      (∀ kv ∈ ys, kv.2.name = kv.1) →
      ys.lookup n = some y →
      seen.lookup n = some x →
      ¬(x.directory = true ∧ y.directory = true) → x ≠ y →
      ∃ e, ys.foldlM (fun st kv => mergeStep st kv.2) (seen, rv) = Except.error e := by
  induction ys with
  | nil =>
    intro seen rv n x y _ hly _ _ _
    simp [List.lookup] at hly
  | cons kv rest ih =>
    intro seen rv n x y hname hly hlx hdir hne
    have hnm := hname kv (List.mem_cons_self _ _)
    by_cases hk : n = kv.1
    · obtain ⟨a, b⟩ := kv
      subst hk
      simp only [List.lookup, beq_self_eq_true] at hly
      cases hly
      simp only at hnm
      have hmf : mergeFiles x y = MergeOutcome.conflict := by
        unfold mergeFiles
        rw [if_neg (by
          intro hc
          exact hdir (by simpa using hc)), if_neg hne]
      have hstep : mergeStep (seen, rv) y = Except.error (FLError.conflict x y) := by
        rw [mergeStep_eq_some seen rv y x (by rw [hnm]; exact hlx), hmf]
      refine ⟨FLError.conflict x y, ?_⟩
      simp only [List.foldlM_cons, hstep]
      rfl
    · obtain ⟨a, b⟩ := kv
      have hb : (n == a) = false := beq_eq_false_iff_ne.mpr hk
      simp only [List.lookup, hb] at hly
      cases hres : mergeStep (seen, rv) b with
      | error e =>
        refine ⟨e, ?_⟩
        simp only [List.foldlM_cons, hres]
        rfl
      | ok st2 =>
        have hx2 : st2.1.lookup n = some x := by
          refine mergeStep_preserves_other seen rv b n x ?_ hlx st2 hres
          simp only at hnm
          rw [hnm]
          exact hk
        obtain ⟨e, he⟩ := ih st2.1 st2.2 n x y
          (fun g hg => hname g (List.mem_cons_of_mem _ hg)) hly hx2 hdir hne
        refine ⟨e, ?_⟩
        simp only [List.foldlM_cons, hres]
        show rest.foldlM (fun st kv => mergeStep st kv.2) st2 = Except.error e
        cases st2
        exact he

theorem map_entry_id (fl : FileList) (hname : ∀ kv ∈ fl, kv.2.name = kv.1) :
    (fl.map fun kv => ((kv.2.name : String), kv.2)) = fl := by
  have h : ∀ kv ∈ fl, ((kv.2.name, kv.2) : String × File) = kv := by
    intro kv hkv
    rw [hname kv hkv]
  calc fl.map (fun kv => ((kv.2.name : String), kv.2)) = fl.map id := List.map_congr_left h
    _ = fl := List.map_id fl

theorem map_name_values (fl : FileList) (hname : ∀ kv ∈ fl, kv.2.name = kv.1) :
    ((fl.map fun kv => kv.2).map File.name) = fl.map Prod.fst := by
  rw [List.map_map]
  exact List.map_congr_left hname

theorem merge_two_disjoint (X Y : FileList) (hX : FLWF X) (hY : FLWF Y)
    (hdisj : ∀ n ∈ X.map Prod.fst, n ∉ Y.map Prod.fst) :
    FileList.merge [X, Y] = Except.ok (X ++ Y) := by
  obtain ⟨hndX, hwfX⟩ := hX
  obtain ⟨hndY, hwfY⟩ := hY
  have h1 := foldlM_mergeStep_fresh X [] []
    (fun kv h => (hwfX kv h).2) (fun kv _ => by simp) hndX
  have h2 := foldlM_mergeStep_fresh Y X (X.map fun kv => kv.2)
    (fun kv h => (hwfY kv h).2)
    (fun kv h hmem => hdisj kv.1 hmem (List.mem_map_of_mem Prod.fst h)) hndY
  simp only [List.nil_append] at h1
  unfold FileList.merge
  have houter :
      List.foldlM (fun st fl => fl.foldlM (fun st kv => mergeStep st kv.2) st)
        (([] : FileList), ([] : List File)) [X, Y] =
      Except.ok (X ++ Y, (X.map fun kv => kv.2) ++ (Y.map fun kv => kv.2)) := by
    simp only [List.foldlM_cons, List.foldlM_nil, h1]
    show Except.bind (Except.ok (X, X.map fun kv => kv.2)) _ = _
    rw [Except.bind]
    simp only [h2]
    rfl
  rw [show (do
      let st ←
        List.foldlM (fun st fl => fl.foldlM (fun st kv => mergeStep st kv.2) st)
          (([] : FileList), ([] : List File)) [X, Y]
      ofFiles st.2 : Except FLError FileList) =
    Except.bind
      (List.foldlM (fun st fl => fl.foldlM (fun st kv => mergeStep st kv.2) st)
        (([] : FileList), ([] : List File)) [X, Y])
      (fun st => ofFiles st.2) from rfl]
  rw [houter, Except.bind]
  show ofFiles ((X.map fun kv => kv.2) ++ (Y.map fun kv => kv.2)) = _
  unfold ofFiles
  have hnames : (((X.map fun kv => kv.2) ++ (Y.map fun kv => kv.2)).map File.name) =
      X.map Prod.fst ++ Y.map Prod.fst := by
    rw [List.map_append, map_name_values X (fun kv h => (hwfX kv h).2), map_name_values Y (fun kv h => (hwfY kv h).2)]
  have hchk : ∀ f ∈ (X.map fun kv => kv.2) ++ (Y.map fun kv => kv.2),
      checkFileName f.name = true := by
    intro f hf
    rcases List.mem_append.mp hf with hf | hf
    · obtain ⟨kv, hkv, rfl⟩ := List.mem_map.mp hf
      rw [(hwfX kv hkv).2]
      exact (hwfX kv hkv).1
    · obtain ⟨kv, hkv, rfl⟩ := List.mem_map.mp hf
      rw [(hwfY kv hkv).2]
      exact (hwfY kv hkv).1
  have hnd : (((X.map fun kv => kv.2) ++ (Y.map fun kv => kv.2)).map File.name).Nodup := by
    rw [hnames]
    exact List.Nodup.append hndX hndY (by
      intro n hnX hnY
      exact hdisj n hnX hnY)
  have := foldlM_add_fresh ((X.map fun kv => kv.2) ++ (Y.map fun kv => kv.2)) []
    hchk (fun f _ => by simp) hnd
  rw [this]
  congr 1
  rw [List.nil_append, List.map_append, List.map_map, List.map_map]
  show (X.map fun kv => ((kv.2.name : String), kv.2)) ++
      (Y.map fun kv => ((kv.2.name : String), kv.2)) = X ++ Y
  rw [map_entry_id X (fun kv h => (hwfX kv h).2), map_entry_id Y (fun kv h => (hwfY kv h).2)]

theorem dictEqB_append_comm (X Y : FileList)
    (hndX : (X.map Prod.fst).Nodup) (hndY : (Y.map Prod.fst).Nodup)
    (hdisj : ∀ n ∈ X.map Prod.fst, n ∉ Y.map Prod.fst) :
    dictEqB (X ++ Y) (Y ++ X) = true := by
  unfold dictEqB
  rw [Bool.and_eq_true, List.all_eq_true, List.all_eq_true]
  constructor
  · intro kv hkv
    rw [beq_iff_eq]
    rcases List.mem_append.mp hkv with h | h
    · have hmem : kv.1 ∈ X.map Prod.fst := List.mem_map_of_mem Prod.fst h
      rw [lookup_append_right Y X kv.1 (fun hc => hdisj kv.1 hmem hc)]
      exact lookup_of_mem_nodup X kv h hndX
    · have hmem : kv.1 ∈ Y.map Prod.fst := List.mem_map_of_mem Prod.fst h
      rw [lookup_append_left Y X kv.1 hmem]
      exact lookup_of_mem_nodup Y kv h hndY
  · intro kv hkv
    rw [beq_iff_eq]
    rcases List.mem_append.mp hkv with h | h
    · have hmem : kv.1 ∈ Y.map Prod.fst := List.mem_map_of_mem Prod.fst h
      rw [lookup_append_right X Y kv.1 (fun hc => hdisj kv.1 hc hmem)]
      exact lookup_of_mem_nodup Y kv h hndY
    · have hmem : kv.1 ∈ X.map Prod.fst := List.mem_map_of_mem Prod.fst h
      rw [lookup_append_left X Y kv.1 hmem]
      exact lookup_of_mem_nodup X kv h hndX

theorem merge_two_conflict (X Y : FileList) (hX : FLWF X) (hY : FLWF Y)
    (n : String) (x y : File) (hlx : X.lookup n = some x) (hly : Y.lookup n = some y)
    (hdir : ¬(x.directory = true ∧ y.directory = true)) (hne : x ≠ y) :
    ∃ e, FileList.merge [X, Y] = Except.error e := by
  obtain ⟨hndX, hwfX⟩ := hX
  obtain ⟨hndY, hwfY⟩ := hY
  have h1 := foldlM_mergeStep_fresh X [] []
    (fun kv h => (hwfX kv h).2) (fun kv _ => by simp) hndX
  simp only [List.nil_append] at h1
  obtain ⟨e, he⟩ := foldlM_mergeStep_conflict Y X (X.map fun kv => kv.2) n x y
    (fun kv h => (hwfY kv h).2) hly hlx hdir hne
  refine ⟨e, ?_⟩
  unfold FileList.merge
  have houter :
      List.foldlM (fun st fl => fl.foldlM (fun st kv => mergeStep st kv.2) st)
        (([] : FileList), ([] : List File)) [X, Y] = Except.error e := by
    simp only [List.foldlM_cons, List.foldlM_nil, h1]
    show Except.bind (Except.ok (X, X.map fun kv => kv.2)) _ = _
    rw [Except.bind]
    simp only [he]
    rfl
  rw [show (do
      let st ←
        List.foldlM (fun st fl => fl.foldlM (fun st kv => mergeStep st kv.2) st)
          (([] : FileList), ([] : List File)) [X, Y]
      ofFiles st.2 : Except FLError FileList) =
    Except.bind
      (List.foldlM (fun st fl => fl.foldlM (fun st kv => mergeStep st kv.2) st)
        (([] : FileList), ([] : List File)) [X, Y])
      (fun st => ofFiles st.2) from rfl]
  rw [houter]
  rfl

/-! ## Claim C9 — merge union and commutativity -/
/-- C9: for well-formed `FileList`s sharing no name, `merge(X, Y)`
succeeds with exactly the entries of `X` then `Y`, so it contains
exactly the union of the names, and `merge(X, Y) == merge(Y, X)` in
the Python-dict sense; and if a shared name holds two entries that
are not both directories and not equal, the merge fails. -/
theorem C9_merge_union_comm (X Y : FileList) (hX : FLWF X) (hY : FLWF Y) :
    ((∀ n ∈ X.map Prod.fst, n ∉ Y.map Prod.fst) →
      FileList.merge [X, Y] = Except.ok (X ++ Y) ∧
      FileList.merge [Y, X] = Except.ok (Y ++ X) ∧
      (∀ n, n ∈ (X ++ Y).map Prod.fst ↔ n ∈ X.map Prod.fst ∨ n ∈ Y.map Prod.fst) ∧
      dictEqB (X ++ Y) (Y ++ X) = true) ∧
    (∀ (n : String) (x y : File), X.lookup n = some x → Y.lookup n = some y →
      ¬(x.directory = true ∧ y.directory = true) → x ≠ y →
      ∃ e, FileList.merge [X, Y] = Except.error e) := by
  constructor
  · intro hdisj
    have hdisj2 : ∀ n ∈ Y.map Prod.fst, n ∉ X.map Prod.fst :=
      fun n hnY hnX => hdisj n hnX hnY
    refine ⟨merge_two_disjoint X Y hX hY hdisj, merge_two_disjoint Y X hY hX hdisj2, ?_, ?_⟩
    · intro n
      simp [List.map_append]
    · exact dictEqB_append_comm X Y hX.1 hY.1 hdisj
  · intro n x y hlx hly hdir hne
    exact merge_two_conflict X Y hX hY n x y hlx hly hdir hne

/-- C9 witness: the theorem applied to concrete disjoint lists and to
a concrete conflicting pair. -/
theorem C9_witness :
    FileList.merge [[(("a" : String), File.mk "a" (some "pa") false false)],
        [(("b" : String), File.mk "b" (some "pb") false true)]] =
      Except.ok [(("a" : String), File.mk "a" (some "pa") false false),
        (("b" : String), File.mk "b" (some "pb") false true)] ∧
    (∃ e, FileList.merge [[(("c" : String), File.mk "c" (some "p1") false false)],
        [(("c" : String), File.mk "c" (some "p2") false false)]] = Except.error e) := by
  constructor
  · exact ((C9_merge_union_comm
      [(("a" : String), File.mk "a" (some "pa") false false)]
      [(("b" : String), File.mk "b" (some "pb") false true)]
      (by constructor <;> decide) (by constructor <;> decide)).1 (by decide)).1
  · exact (C9_merge_union_comm
      [(("c" : String), File.mk "c" (some "p1") false false)]
      [(("c" : String), File.mk "c" (some "p2") false false)]
      (by constructor <;> decide) (by constructor <;> decide)).2 "c"
      (File.mk "c" (some "p1") false false) (File.mk "c" (some "p2") false false)
      rfl rfl (by decide) (by decide)

/-! ## Claim C1 — merge semantics of `__setitem__` -/
/-- C1 (amended): adding a `File` under an existing name merges: when
both entries are directories the stored one is kept *unless its path
is `None`*, in which case the new file replaces it in place; when not
both are directories the two files must be structurally equal (list
unchanged) or the operation fails with a duplicate-file conflict.
The dedup step of `FileList.merge` applies the same rule. -/
theorem C1_merge_semantics (fl : FileList) (key : String) (f existing : File)
    (hk : checkFileName key = true) (hlook : fl.lookup key = some existing) :
    (existing.directory = true → f.directory = true → existing.path ≠ none →
      setItem fl key f = Except.ok fl) ∧
    (existing.directory = true → f.directory = true → existing.path = none →
      setItem fl key f = Except.ok (replaceEntry fl key f.copy)) ∧
    (¬(existing.directory = true ∧ f.directory = true) → existing = f →
      setItem fl key f = Except.ok fl) ∧
    (¬(existing.directory = true ∧ f.directory = true) → existing ≠ f →
      setItem fl key f = Except.error (FLError.conflict existing f)) ∧
    (∀ seen rv, seen.lookup f.name = some existing →
      (existing.directory = true → f.directory = true → existing.path ≠ none →
        mergeStep (seen, rv) f = Except.ok (seen, rv)) ∧
      (existing.directory = true → f.directory = true → existing.path = none →
        mergeStep (seen, rv) f =
          Except.ok (replaceEntry seen f.name f.copy, rv ++ [f.copy])) ∧
      (¬(existing.directory = true ∧ f.directory = true) → existing = f →
        mergeStep (seen, rv) f = Except.ok (seen, rv)) ∧
      (¬(existing.directory = true ∧ f.directory = true) → existing ≠ f →
        mergeStep (seen, rv) f = Except.error (FLError.conflict existing f))) := by
  have hsplit : ∀ res : MergeOutcome,
      mergeFiles existing f = res →
      (existing.directory = true → f.directory = true → existing.path ≠ none →
        res = MergeOutcome.keepFirst) ∧
      (existing.directory = true → f.directory = true → existing.path = none →
        res = MergeOutcome.useSecond f) ∧
      (¬(existing.directory = true ∧ f.directory = true) → existing = f →
        res = MergeOutcome.keepFirst) ∧
      (¬(existing.directory = true ∧ f.directory = true) → existing ≠ f →
        res = MergeOutcome.conflict) := by
    intro res hres
    unfold mergeFiles at hres
    refine ⟨?_, ?_, ?_, ?_⟩
    · intro h1 h2 h3
      rw [if_pos (by simp [h1, h2]), if_pos (Option.isSome_iff_ne_none.mpr h3)] at hres
      exact hres.symm
    · intro h1 h2 h3
      rw [if_pos (by simp [h1, h2]), if_neg (by simp [h3])] at hres
      exact hres.symm
    · intro h1 h2
      rw [if_neg (by intro hc; exact h1 (by simpa using hc)), if_pos h2] at hres
      exact hres.symm
    · intro h1 h2
      rw [if_neg (by intro hc; exact h1 (by simpa using hc)), if_neg h2] at hres
      exact hres.symm
  have hs := hsplit (mergeFiles existing f) rfl
  have hset : setItem fl key f =
      match mergeFiles existing f with
      | MergeOutcome.keepFirst => Except.ok fl
      | MergeOutcome.useSecond f2 => Except.ok (replaceEntry fl key f2.copy)
      | MergeOutcome.conflict => Except.error (FLError.conflict existing f) := by
    unfold setItem
    rw [hk]
    simp only [Bool.not_true, Bool.false_eq_true, if_false, hlook]
  refine ⟨?_, ?_, ?_, ?_, ?_⟩
  · intro h1 h2 h3
    rw [hset, hs.1 h1 h2 h3]
  · intro h1 h2 h3
    rw [hset, hs.2.1 h1 h2 h3]
  · intro h1 h2
    rw [hset, hs.2.2.1 h1 h2]
  · intro h1 h2
    rw [hset, hs.2.2.2 h1 h2]
  · intro seen rv hlook2
    have hstep : mergeStep (seen, rv) f =
        match mergeFiles existing f with
        | MergeOutcome.keepFirst => Except.ok (seen, rv)
        | MergeOutcome.useSecond f2 =>
            Except.ok (replaceEntry seen f.name f2.copy, rv ++ [f2.copy])
        | MergeOutcome.conflict => Except.error (FLError.conflict existing f) := by
      unfold mergeStep
      simp only [hlook2]
    refine ⟨?_, ?_, ?_, ?_⟩
    · intro h1 h2 h3
      rw [hstep, hs.1 h1 h2 h3]
    · intro h1 h2 h3
      rw [hstep, hs.2.1 h1 h2 h3]
    · intro h1 h2
      rw [hstep, hs.2.2.1 h1 h2]
    · intro h1 h2
      rw [hstep, hs.2.2.2 h1 h2]

/-- C1 counterexample: two directory entries with the same name where
the stored one has `path = None`: the second *replaces* the first, so
"first-inserted wins, list unchanged" is false. -/
theorem C1_counterexample :
    FileList.add [("a", File.mk "a" none true false)] (File.mk "a" (some "p") true false) =
      Except.ok [("a", File.mk "a" (some "p") true false)] ∧
    File.mk "a" (some "p") true false ≠ File.mk "a" none true false :=
  ⟨rfl, by decide⟩

/-- C1 witness: the amended theorem applied to a concrete list. -/
theorem C1_witness :
    setItem [("a", File.mk "a" none true false)] "a" (File.mk "a" (some "p") true false) =
      Except.ok
        (replaceEntry [("a", File.mk "a" none true false)] "a"
          (File.mk "a" (some "p") true false).copy) :=
  (C1_merge_semantics [("a", File.mk "a" none true false)] "a"
      (File.mk "a" (some "p") true false) (File.mk "a" none true false)
      (by decide) rfl).2.1 rfl rfl rfl

/-- C10 witness: a directory named `Icon\r` with a child is skipped
whole — the child is never examined. -/
theorem C10_witness :
    hasControlChar "Icon\x0d" = true ∧
    walk [("**", some ["all"])] "Icon\x0d"
        (FSNode.mk "/p" true
          (FSChildren.cons "c" (FSNode.mk "/p/c" false FSChildren.nil) FSChildren.nil)) =
      [Eff.call "Icon\x0d"] :=
  ⟨by decide, C10_control_char_skip _ _ _ (by decide)⟩

/-! ## Claim C5 — cycle detection and the reported set -/
theorem mem_alRemove_keys (rv : AL) (name k : String) :
    k ∈ (alRemove rv name).map Prod.fst ↔ k ∈ rv.map Prod.fst ∧ k ≠ name := by
  unfold alRemove
  constructor
  · intro h
    obtain ⟨kv, hkv, rfl⟩ := List.mem_map.mp h
    have hmem := List.mem_of_mem_filter hkv
    have hp := List.of_mem_filter hkv
    simp only [decide_eq_true_eq] at hp
    exact ⟨List.mem_map_of_mem Prod.fst hmem, hp⟩
  · rintro ⟨h, hne⟩
    obtain ⟨kv, hkv, rfl⟩ := List.mem_map.mp h
    refine List.mem_map_of_mem Prod.fst (List.mem_filter.mpr ⟨hkv, ?_⟩)
    simp [hne]

theorem peelF_keys_not_popped :
    ∀ (fuel : Nat) (fw rv : AL) (ws popped : List String),
      (∀ k ∈ rv.map Prod.fst, k ∉ popped) →
      ∀ k ∈ (peelF fuel fw rv ws popped).1.map Prod.fst,
        k ∉ (peelF fuel fw rv ws popped).2 := by
  intro fuel
  induction fuel with
  | zero => intro fw rv ws popped h; exact h
  | succ fuel ih =>
    intro fw rv ws popped h
    cases ws with
    | nil => exact h
    | cons name ws2 =>
      show ∀ k ∈ (peelF fuel _ (alRemove rv name) _ (popped ++ [name])).1.map Prod.fst, _
      apply ih
      intro k hk
      have hk2 := (mem_alRemove_keys rv name k).mp hk
      simp only [List.mem_append, List.mem_singleton]
      push_neg
      exact ⟨h k hk2.1, hk2.2⟩

/-- C5 (amended): when tasks remain after the peeling stage,
`Runner.compute` raises (and `Runner.run` propagates the error with
no task result ever produced) naming, in sorted order, the
un-removable tasks *that some other task depends on* — the keys of
the remaining reverse map, not the whole un-removable set; for
`A requires B, B requires C, C requires A` that set is exactly
`{A, B, C}`. -/
theorem C5_cycle_error :
    (∀ reg : List RegTask, (buildGraph reg).unknown = [] → peelRemaining reg ≠ [] →
      compute reg =
        Except.error (ComputeErr.cycleTasks (insSort ((peelRemaining reg).map Prod.fst))) ∧
      (∀ n ∈ (peelRemaining reg).map Prod.fst, n ∉ peelTrace reg) ∧
      (∀ f, runnerRun reg f =
        Except.error (ComputeErr.cycleTasks (insSort ((peelRemaining reg).map Prod.fst))))) ∧
    compute [RegTask.mk "A" ["B"] [], RegTask.mk "B" ["C"] [], RegTask.mk "C" ["A"] []] =
      Except.error (ComputeErr.cycleTasks ["A", "B", "C"]) ∧
    peelTrace [RegTask.mk "A" ["B"] [], RegTask.mk "B" ["C"] [], RegTask.mk "C" ["A"] []] =
      [] := by
  refine ⟨?_, rfl, rfl⟩
  intro reg hunk hrem
  have hcomp : compute reg =
      Except.error (ComputeErr.cycleTasks (insSort ((peelRemaining reg).map Prod.fst))) := by
    unfold compute
    rw [if_neg (by simp [hunk])]
    simp only [ne_eq]
    split
    · rfl
    · next h => exact absurd (not_not.mp h) hrem
  refine ⟨hcomp, ?_, ?_⟩
  · intro n hn
    unfold peelRemaining at hn
    unfold peelTrace
    exact peelF_keys_not_popped _ _ _ _ [] (by simp) n hn
  · intro f
    unfold runnerRun
    rw [hcomp]

/-- C5 witness: the amended theorem applied to the concrete
three-task cycle. -/
theorem C5_witness :
    compute [RegTask.mk "A" ["B"] [], RegTask.mk "B" ["C"] [], RegTask.mk "C" ["A"] []] =
      Except.error (ComputeErr.cycleTasks (insSort
        ((peelRemaining [RegTask.mk "A" ["B"] [], RegTask.mk "B" ["C"] [],
            RegTask.mk "C" ["A"] []]).map Prod.fst))) :=
  (C5_cycle_error.1 [RegTask.mk "A" ["B"] [], RegTask.mk "B" ["C"] [], RegTask.mk "C" ["A"] []]
    rfl (by decide)).1

/-- C5 counterexample: with `A requires B`, `B requires A`,
`D requires A`, the task `D` is un-removable by peeling (the trace is
empty, so nothing was removed) yet the reported set is only
`{A, B}`. -/
theorem C5_counterexample :
    compute [RegTask.mk "A" ["B"] [], RegTask.mk "B" ["A"] [], RegTask.mk "D" ["A"] []] =
      Except.error (ComputeErr.cycleTasks ["A", "B"]) ∧
    peelTrace [RegTask.mk "A" ["B"] [], RegTask.mk "B" ["A"] [], RegTask.mk "D" ["A"] []] =
      [] ∧
    "D" ∈ ([RegTask.mk "A" ["B"] [], RegTask.mk "B" ["A"] [],
        RegTask.mk "D" ["A"] []].map fun t => t.name) ∧
    ¬("D" ∈ (["A", "B"] : List String)) :=
  ⟨rfl, rfl, by decide, by decide⟩

/-- C4: on a duplicate-free, closed, acyclic registration,
`Runner.compute` succeeds and yields every registered task exactly
once, in an order where each task `b` with an edge "b before a"
(`a` requires `b`, or `b` lists `a` in its dependencies) is placed
strictly before `a`; in particular for `A requires B`, `B requires C`
the computed order is `C`, `B`, `A`. -/
theorem C4_compute_topological :
    (∀ reg : List RegTask,
      (reg.map fun t => t.name).Nodup →
      (∀ t ∈ reg,
        (∀ r ∈ t.requires, r ∈ reg.map fun u => u.name) ∧
        (∀ d ∈ t.dependencies, d ∈ reg.map fun u => u.name)) →
      Acyclic reg →
      ∃ order, compute reg = Except.ok order ∧ order.Nodup ∧
        (∀ n, n ∈ order ↔ n ∈ reg.map fun t => t.name) ∧
        (∀ a b, edgeBefore reg b a → order.indexOf b < order.indexOf a)) ∧
    compute [RegTask.mk "A" ["B"] [], RegTask.mk "B" ["C"] [], RegTask.mk "C" [] []] =
      Except.ok ["C", "B", "A"] := by
  refine ⟨?_, rfl⟩
  intro reg hnodup hclosed hacyc
  obtain ⟨rk, hrk⟩ := hacyc
  obtain ⟨h1, h2, h3, h4, h5, h6, h7⟩ := buildGraph_spec reg hclosed
  have hirr : ∀ a, a ∉ alGet (buildGraph reg).forward a := by
    intro a ha
    exact absurd (hrk a a ((h1 a a).mp ha)) (lt_irrefl _)
  have hclosedF : ∀ a b, b ∈ alGet (buildGraph reg).forward a →
      b ∈ (reg.map fun t => t.name) ∧ a ∈ (reg.map fun t => t.name) := by
    intro a b hb
    obtain ⟨t, ht, hcase⟩ := (h1 a b).mp hb
    rcases hcase with ⟨hna, hbr⟩ | ⟨hnb, had⟩
    · exact ⟨(hclosed t ht).1 b hbr, hna ▸ List.mem_map_of_mem _ ht⟩
    · exact ⟨hnb ▸ List.mem_map_of_mem _ ht, (hclosed t ht).2 a had⟩
  have hinv : PeelInv (buildGraph reg).forward (buildGraph reg).reverse
      (reg.map fun t => t.name) (buildGraph reg).forward (buildGraph reg).reverse
      ((reg.map fun t => t.name).filter fun n => !alHas (buildGraph reg).forward n) [] := by
    refine ⟨?_, fun i => rfl, ?_, List.nodup_nil, ?_, ?_, ?_, ?_, ?_, ?_, ?_⟩
    · intro i
      exact (List.filter_eq_self.mpr fun a _ => by simp).symm
    · exact (List.filter_eq_self.mpr fun kv _ => by simp).symm
    · exact hnodup.filter _
    · intro w _
      exact List.not_mem_nil w
    · intro w hw
      exact List.mem_of_mem_filter hw
    · intro p hp
      exact absurd hp (List.not_mem_nil p)
    · intro w hw d hd
      have hhas : alHas (buildGraph reg).forward w = false := by
        have := List.of_mem_filter hw
        simpa using this
      rw [alGet_eq_nil_of_not_has _ _ hhas] at hd
      cases hd
    · intro n hn h0
      refine Or.inr (List.mem_filter.mpr ⟨hn, ?_⟩)
      cases hv : alHas (buildGraph reg).forward n
      · rfl
      · exact absurd h0 (h5 n hv)
    · intro n hn
      exact absurd hn (List.not_mem_nil n)
  obtain ⟨poppedF, heqPeel, hndP, hsubP, hordP, hcompP, _⟩ :=
    peelF_spec (buildGraph reg).forward (buildGraph reg).reverse (reg.map fun t => t.name)
      h2 h3 h4 hirr hclosedF ((reg.map fun t => t.name).length + 1)
      (buildGraph reg).forward (buildGraph reg).reverse
      ((reg.map fun t => t.name).filter fun n => !alHas (buildGraph reg).forward n) []
      hinv (by simp)
  have hallpop : ∀ n ∈ (reg.map fun t => t.name), n ∈ poppedF := by
    have hstep : ∀ k, ∀ n ∈ (reg.map fun t => t.name), rk n < k → n ∈ poppedF := by
      intro k
      induction k with
      | zero =>
        intro n _ h
        omega
      | succ k ih =>
        intro n hn hlt
        apply hcompP n hn
        intro d hd
        have hdlt := hrk n d ((h1 n d).mp hd)
        exact ih d (hclosedF n d hd).1 (by omega)
    intro n hn
    exact hstep (rk n + 1) n hn (Nat.lt_succ_self _)
  have hfilemp : ((buildGraph reg).reverse.filter fun kv => decide (kv.1 ∉ poppedF)) = [] := by
    rw [List.filter_eq_nil_iff]
    intro kv hkv
    have hk1 : kv.1 ∈ (buildGraph reg).reverse.map Prod.fst :=
      List.mem_map_of_mem Prod.fst hkv
    have hhas : alHas (buildGraph reg).reverse kv.1 = true := by
      unfold alHas
      cases hl : (buildGraph reg).reverse.lookup kv.1
      · exact absurd hk1 ((lookup_eq_none_iff _ _).mp hl)
      · rfl
    obtain ⟨a, ha⟩ := List.exists_mem_of_ne_nil _ (h6 kv.1 hhas)
    have hkn : kv.1 ∈ (reg.map fun t => t.name) :=
      (hclosedF a kv.1 ((h2 a kv.1).mpr ha)).1
    simp [hallpop kv.1 hkn]
  have hDeq : ∀ n ∈ (reg.map fun t => t.name),
      ((reg.map fun t => t.name).map fun m =>
        (m, alGet (buildGraph reg).forward m)).lookup n =
        some (alGet (buildGraph reg).forward n) :=
    fun n hn => (lookup_map_pair _ _ n).1 hn
  have hDnone : ∀ n, n ∉ (reg.map fun t => t.name) →
      ((reg.map fun t => t.name).map fun m =>
        (m, alGet (buildGraph reg).forward m)).lookup n = none :=
    fun n hn => (lookup_map_pair _ _ n).2 hn
  have hrkP : ∀ n, ∀ d ∈ ((((reg.map fun t => t.name).map fun m =>
      (m, alGet (buildGraph reg).forward m)).lookup n).getD []),
      poppedF.indexOf d < poppedF.indexOf n := by
    intro n d hd
    by_cases hn : n ∈ (reg.map fun t => t.name)
    · rw [hDeq n hn] at hd
      simp only [Option.getD_some] at hd
      exact (hordP n (hallpop n hn) d hd).2
    · rw [hDnone n hn] at hd
      simp at hd
  have hBP : ∀ n, (((((reg.map fun t => t.name).map fun m =>
      (m, alGet (buildGraph reg).forward m)).lookup n).getD []).length) ≤
      ((((reg.map fun t => t.name).map fun m =>
        (m, alGet (buildGraph reg).forward m)).map fun kv => kv.2.length).sum) := by
    intro n
    by_cases hn : n ∈ (reg.map fun t => t.name)
    · rw [hDeq n hn]
      simp only [Option.getD_some]
      refine List.single_le_sum (fun x _ => Nat.zero_le x) _ ?_
      rw [List.map_map]
      exact List.mem_map_of_mem _ hn
    · rw [hDnone n hn]
      simp
  have hclP : ∀ n, ∀ d ∈ ((((reg.map fun t => t.name).map fun m =>
      (m, alGet (buildGraph reg).forward m)).lookup n).getD []),
      d ∈ (reg.map fun t => t.name) := by
    intro n d hd
    by_cases hn : n ∈ (reg.map fun t => t.name)
    · rw [hDeq n hn] at hd
      simp only [Option.getD_some] at hd
      exact (hclosedF n d hd).1
    · rw [hDnone n hn] at hd
      simp at hd
  have hfuelP : ∀ n ∈ (reg.map fun t => t.name),
      (poppedF.indexOf n + 1) *
        (((((reg.map fun t => t.name).map fun m =>
          (m, alGet (buildGraph reg).forward m)).map fun kv => kv.2.length).sum) + 2) ≤
      ((reg.map fun t => t.name).length + 1) *
        (((((reg.map fun t => t.name).map fun m =>
          (m, alGet (buildGraph reg).forward m)).map fun kv => kv.2.length).sum) + 2) := by
    intro n hn
    have hidx : poppedF.indexOf n < poppedF.length :=
      List.indexOf_lt_length.mpr (hallpop n hn)
    have hlen : poppedF.length ≤ (reg.map fun t => t.name).length :=
      nodup_subset_length poppedF _ hndP (fun x hx => hsubP x hx)
    exact Nat.mul_le_mul_right _ (by omega)
  obtain ⟨memoF, hplace, hgF, hmemF, hsubF, _⟩ :=
    placeAll_spec
      (fun n => (((reg.map fun t => t.name).map fun m =>
        (m, alGet (buildGraph reg).forward m)).lookup n).getD [])
      (fun n => (reg.map fun t => t.name).indexOf n)
      (fun n => poppedF.indexOf n)
      ((((reg.map fun t => t.name).map fun m =>
        (m, alGet (buildGraph reg).forward m)).map fun kv => kv.2.length).sum)
      (reg.map fun t => t.name)
      hrkP hBP hclP
      (((reg.map fun t => t.name).length + 1) *
        (((((reg.map fun t => t.name).map fun m =>
          (m, alGet (buildGraph reg).forward m)).map fun kv => kv.2.length).sum) + 2))
      (reg.map fun t => t.name) []
      ⟨List.nodup_nil, by simp⟩ hfuelP (by simp) (fun n hn => hn)
  have hcomp : compute reg = Except.ok (memoF.map Prod.fst) := by
    unfold compute
    rw [if_neg (by simp [h7])]
    simp only [ne_eq]
    rw [heqPeel]
    rw [if_neg (not_not_intro hfilemp)]
    rw [hplace]
  refine ⟨memoF.map Prod.fst, hcomp, hgF.1, ?_, ?_⟩
  · intro n
    exact ⟨fun h => hsubF n h, fun h => hmemF n h⟩
  · intro a b hedge
    have hb : b ∈ alGet (buildGraph reg).forward a := (h1 a b).mpr hedge
    have haN : a ∈ (reg.map fun t => t.name) := (hclosedF a b hb).2
    have haK : a ∈ memoF.map Prod.fst := hmemF a haN
    have hdA : b ∈ ((((reg.map fun t => t.name).map fun m =>
        (m, alGet (buildGraph reg).forward m)).lookup a).getD []) := by
      rw [hDeq a haN]
      simpa using hb
    exact (hgF.2 a haK b hdA).2

/-- C4 witness: the topological-order theorem applied to the concrete
chain `A requires B`, `B requires C`, with rank `C` 0, `B` 1, `A` 2
certifying acyclicity. -/
theorem C4_witness :
    ∃ order,
      compute [RegTask.mk "A" ["B"] [], RegTask.mk "B" ["C"] [], RegTask.mk "C" [] []] =
        Except.ok order ∧ order.Nodup ∧
      (∀ n, n ∈ order ↔ n ∈ ([RegTask.mk "A" ["B"] [], RegTask.mk "B" ["C"] [],
          RegTask.mk "C" [] []].map fun t => t.name)) ∧
      (∀ a b, edgeBefore [RegTask.mk "A" ["B"] [], RegTask.mk "B" ["C"] [],
          RegTask.mk "C" [] []] b a → order.indexOf b < order.indexOf a) :=
  C4_compute_topological.1 _ (by decide) (by decide)
    ⟨fun n => if n = "C" then 0 else if n = "B" then 1 else 2, by
      rintro a b ⟨t, ht, h⟩
      simp only [List.mem_cons, List.not_mem_nil, or_false] at ht
      rcases ht with rfl | rfl | rfl <;>
        rcases h with ⟨rfl, hm⟩ | ⟨rfl, hm⟩ <;>
        simp only [List.mem_cons, List.not_mem_nil, or_false] at hm <;>
        subst hm <;> decide⟩

end RenpyDist
